import Mathlib

/-!
Verification of the numeric core of rust-lexical (string-to-float parsing and
float-to-string formatting).

The repository's visible sources expose the dispatcher (`to_native` in
`lexical-core/src/atof/algorithm/correct.rs`), the public trait surface
(`lexical-util/src/api.rs`), the buffer constants
(`lexical-util/src/constants.rs`), the Grisu power table
(`lexical-write-float/src/table_grisu.rs`) and an extensive test corpus.
The bodies of the parsing cascade (`pown::to_native`, `pow2::to_native`),
the shortest formatter and the integer digit writer are not included in
the sources, so they are modelled from the specification: the parser is
exact-rational evaluation followed by IEEE round-to-nearest, ties-to-even
(spec sections 4.2, 4.3, 8), the formatter emits the shortest digit string
that re-parses to the same value (spec section 4.5), and the tokenizer
follows the grammar implied by the test corpus in `correct.rs`.

All definitions are executable; rational arithmetic is routed through
`mkRat` (rather than the irreducible `Rat.mul`/`Rat.add`/`Rat.sub`) so
that concrete instances reduce inside `decide`.
-/

set_option maxRecDepth 40000

namespace LexCore

/-! ### Kernel-reducible rational arithmetic -/

/-- Multiplication on `ℚ` implemented through `mkRat` so it reduces in the kernel. -/
def qmul (a b : ℚ) : ℚ := mkRat (a.num * b.num) (a.den * b.den)

/-- Addition on `ℚ` implemented through `mkRat` so it reduces in the kernel. -/
def qadd (a b : ℚ) : ℚ := mkRat (a.num * (b.den : ℤ) + b.num * (a.den : ℤ)) (a.den * b.den)

/-- Subtraction on `ℚ` implemented through `mkRat` so it reduces in the kernel. -/
def qsub (a b : ℚ) : ℚ := mkRat (a.num * (b.den : ℤ) - b.num * (a.den : ℤ)) (a.den * b.den)

theorem den_cast_ne_zero (a : ℚ) : ((a.den : ℚ)) ≠ 0 :=
  Nat.cast_ne_zero.mpr a.den_nz

theorem num_eq_mul_den (a : ℚ) : ((a.num : ℚ)) = a * (a.den : ℚ) := by
  have h := Rat.num_div_den a
  rw [div_eq_iff (den_cast_ne_zero a)] at h
  exact h

theorem natCast_two_pow (a : ℕ) : ((2 ^ a : ℕ) : ℚ) = (2 : ℚ) ^ ((a : ℤ)) := by
  rw [zpow_natCast]
  push_cast
  ring

theorem toNat_cast_q (i : ℤ) (h : 0 ≤ i) : ((i.toNat : ℕ) : ℚ) = (i : ℚ) := by
  exact_mod_cast Int.toNat_of_nonneg h

theorem qmul_eq (a b : ℚ) : qmul a b = a * b := by
  rw [qmul, Rat.mkRat_eq_div]
  push_cast
  rw [num_eq_mul_den a, num_eq_mul_den b]
  rw [div_eq_iff (by positivity)]
  ring

theorem qadd_eq (a b : ℚ) : qadd a b = a + b := by
  rw [qadd, Rat.mkRat_eq_div]
  push_cast
  rw [num_eq_mul_den a, num_eq_mul_den b]
  rw [div_eq_iff (by positivity)]
  ring

theorem qsub_eq (a b : ℚ) : qsub a b = a - b := by
  rw [qsub, Rat.mkRat_eq_div]
  push_cast
  rw [num_eq_mul_den a, num_eq_mul_den b]
  rw [div_eq_iff (by positivity)]
  ring

/-- Power of two as a rational, with integer exponent, built from `Nat.pow`
and `mkRat` so that it reduces in the kernel. -/
def pow2Q (e : ℤ) : ℚ :=
  if 0 ≤ e then ((2 ^ e.toNat : ℕ) : ℚ) else mkRat 1 (2 ^ (-e).toNat)

/-- Power of an arbitrary natural radix as a rational, with integer exponent. -/
def powQ (r : ℕ) (e : ℤ) : ℚ :=
  if 0 ≤ e then ((r ^ e.toNat : ℕ) : ℚ) else mkRat 1 (r ^ (-e).toNat)

theorem pow2Q_eq (e : ℤ) : pow2Q e = (2 : ℚ) ^ e := by
  rw [pow2Q]
  split
  · rename_i h
    rw [natCast_two_pow, Int.toNat_of_nonneg h]
  · rename_i h
    rw [Rat.mkRat_eq_div, Nat.cast_pow]
    rw [show ((2 : ℕ) : ℚ) = (2 : ℚ) by norm_num]
    rw [← zpow_natCast (2 : ℚ), Int.toNat_of_nonneg (by omega : (0:ℤ) ≤ -e)]
    rw [Int.cast_one, one_div, ← zpow_neg, neg_neg]

theorem powQ_eq (r : ℕ) (hr : 0 < r) (e : ℤ) : powQ r e = (r : ℚ) ^ e := by
  rw [powQ]
  have hr0 : ((r : ℚ)) ≠ 0 := Nat.cast_ne_zero.mpr (Nat.pos_iff_ne_zero.mp hr)
  split
  · rename_i h
    rw [Nat.cast_pow, ← zpow_natCast ((r : ℕ) : ℚ), Int.toNat_of_nonneg h]
  · rename_i h
    rw [Rat.mkRat_eq_div, Nat.cast_pow]
    rw [← zpow_natCast ((r : ℕ) : ℚ), Int.toNat_of_nonneg (by omega : (0:ℤ) ≤ -e)]
    rw [Int.cast_one, one_div, ← zpow_neg, neg_neg]

/-! ### Base-two logarithms, computable with explicit fuel -/

/-- Fueled binary logarithm on naturals; `log2F fuel n` equals `Nat.log2 n`
whenever `n < 2 ^ fuel`. -/
def log2F : ℕ → ℕ → ℕ
  | 0, _ => 0
  | fuel + 1, n => if 2 ≤ n then log2F fuel (n / 2) + 1 else 0

/-- Binary logarithm of a natural number (`natLog2 0 = 0`). -/
def natLog2 (n : ℕ) : ℕ := log2F n n

theorem log2F_eq (fuel n : ℕ) (h : n < 2 ^ fuel) : log2F fuel n = Nat.log2 n := by
  induction fuel generalizing n with
  | zero =>
    interval_cases n
    simp [log2F, Nat.log2]
  | succ k ih =>
    rw [log2F]
    rw [Nat.log2]
    split
    · rename_i h2
      rw [ih]
      have := Nat.div_lt_self (by omega : 0 < n) (by omega : 1 < 2)
      have h3 : n / 2 < 2 ^ k := by
        have : n / 2 < 2 ^ (k + 1) / 2 := by
          apply Nat.div_lt_div_of_lt_of_dvd ⟨2 ^ k, by ring⟩ h
        simpa [Nat.pow_succ, Nat.mul_div_cancel] using this
      exact h3
    · rfl

theorem natLog2_eq (n : ℕ) : natLog2 n = Nat.log2 n :=
  log2F_eq n n (Nat.lt_two_pow n)

theorem natLog2_le_self (n : ℕ) (h : 0 < n) : 2 ^ natLog2 n ≤ n := by
  rw [natLog2_eq]
  exact Nat.log2_self_le (by omega)

theorem natLog2_lt_self (n : ℕ) : n < 2 ^ (natLog2 n + 1) := by
  rw [natLog2_eq]
  exact Nat.lt_log2_self

/-- Floor of the base-two logarithm of a positive rational. -/
def ratLog2 (q : ℚ) : ℤ :=
  let c : ℤ := (natLog2 q.num.toNat : ℤ) - (natLog2 q.den : ℤ)
  if q < pow2Q c then c - 1 else if q < pow2Q (c + 1) then c else c + 1

theorem ratLog2_spec (q : ℚ) (hq : 0 < q) :
    (2 : ℚ) ^ ratLog2 q ≤ q ∧ q < (2 : ℚ) ^ (ratLog2 q + 1) := by
  have hnum : 0 < q.num := Rat.num_pos.mpr hq
  have hden : 0 < q.den := q.pos
  have hnn : ((q.num.toNat : ℕ) : ℚ) = (q.num : ℚ) := toNat_cast_q q.num (le_of_lt hnum)
  have hna : (2 : ℚ) ^ ((natLog2 q.num.toNat : ℕ) : ℤ) ≤ (q.num : ℚ) := by
    have h0 := natLog2_le_self q.num.toNat (by omega)
    have h2 : ((2 ^ natLog2 q.num.toNat : ℕ) : ℚ) ≤ ((q.num.toNat : ℕ) : ℚ) := by
      exact_mod_cast h0
    rw [natCast_two_pow, hnn] at h2
    exact h2
  have hna2 : (q.num : ℚ) < (2 : ℚ) ^ (((natLog2 q.num.toNat : ℕ) : ℤ) + 1) := by
    have h0 := natLog2_lt_self q.num.toNat
    have h2 : ((q.num.toNat : ℕ) : ℚ) < ((2 ^ (natLog2 q.num.toNat + 1) : ℕ) : ℚ) := by
      exact_mod_cast h0
    rw [natCast_two_pow, hnn] at h2
    have h3 : (((natLog2 q.num.toNat + 1 : ℕ)) : ℤ) = ((natLog2 q.num.toNat : ℕ) : ℤ) + 1 := by
      push_cast
      ring
    rw [h3] at h2
    exact h2
  have hdb : (2 : ℚ) ^ ((natLog2 q.den : ℕ) : ℤ) ≤ (q.den : ℚ) := by
    have h0 := natLog2_le_self q.den hden
    have h2 : ((2 ^ natLog2 q.den : ℕ) : ℚ) ≤ ((q.den : ℕ) : ℚ) := by exact_mod_cast h0
    rw [natCast_two_pow] at h2
    exact h2
  have hdb2 : (q.den : ℚ) < (2 : ℚ) ^ (((natLog2 q.den : ℕ) : ℤ) + 1) := by
    have h0 := natLog2_lt_self q.den
    have h2 : ((q.den : ℕ) : ℚ) < ((2 ^ (natLog2 q.den + 1) : ℕ) : ℚ) := by exact_mod_cast h0
    rw [natCast_two_pow] at h2
    have h3 : (((natLog2 q.den + 1 : ℕ)) : ℤ) = ((natLog2 q.den : ℕ) : ℤ) + 1 := by
      push_cast
      ring
    rw [h3] at h2
    exact h2
  have hqd : q = (q.num : ℚ) / (q.den : ℚ) := (Rat.num_div_den q).symm
  have hdenpos : (0 : ℚ) < (q.den : ℚ) := by positivity
  have hlow : (2 : ℚ) ^ (((natLog2 q.num.toNat : ℕ) : ℤ) - ((natLog2 q.den : ℕ) : ℤ) - 1) < q := by
    conv_rhs => rw [hqd]
    rw [lt_div_iff hdenpos]
    calc (2 : ℚ) ^ (((natLog2 q.num.toNat : ℕ) : ℤ) - ((natLog2 q.den : ℕ) : ℤ) - 1) * (q.den : ℚ)
        < (2 : ℚ) ^ (((natLog2 q.num.toNat : ℕ) : ℤ) - ((natLog2 q.den : ℕ) : ℤ) - 1)
          * (2 : ℚ) ^ (((natLog2 q.den : ℕ) : ℤ) + 1) :=
          mul_lt_mul_of_pos_left hdb2 (by positivity)
    _ = (2 : ℚ) ^ ((natLog2 q.num.toNat : ℕ) : ℤ) := by
          rw [← zpow_add₀ (by norm_num : (2:ℚ) ≠ 0)]
          congr 1
          ring
    _ ≤ (q.num : ℚ) := hna
  have hhigh : q < (2 : ℚ) ^ (((natLog2 q.num.toNat : ℕ) : ℤ) - ((natLog2 q.den : ℕ) : ℤ) + 1) := by
    conv_lhs => rw [hqd]
    rw [div_lt_iff hdenpos]
    calc (q.num : ℚ) < (2 : ℚ) ^ (((natLog2 q.num.toNat : ℕ) : ℤ) + 1) := hna2
    _ = (2 : ℚ) ^ (((natLog2 q.num.toNat : ℕ) : ℤ) - ((natLog2 q.den : ℕ) : ℤ) + 1)
        * (2 : ℚ) ^ ((natLog2 q.den : ℕ) : ℤ) := by
          rw [← zpow_add₀ (by norm_num : (2:ℚ) ≠ 0)]
          congr 1
          ring
    _ ≤ (2 : ℚ) ^ (((natLog2 q.num.toNat : ℕ) : ℤ) - ((natLog2 q.den : ℕ) : ℤ) + 1)
        * (q.den : ℚ) :=
          mul_le_mul_of_nonneg_left hdb (by positivity)
  simp only [ratLog2, pow2Q_eq]
  by_cases h1 : q < (2:ℚ) ^ (((natLog2 q.num.toNat : ℕ) : ℤ) - ((natLog2 q.den : ℕ) : ℤ))
  · rw [if_pos h1]
    exact ⟨le_of_lt hlow, by rw [sub_add_cancel]; exact h1⟩
  · rw [if_neg h1]
    by_cases h2 : q < (2:ℚ) ^ (((natLog2 q.num.toNat : ℕ) : ℤ) - ((natLog2 q.den : ℕ) : ℤ) + 1)
    · rw [if_pos h2]
      exact ⟨not_lt.mp h1, h2⟩
    · rw [if_neg h2]
      exact absurd hhigh h2

/-! ### Abstract binary float formats -/

/-- Parameters of an IEEE-style binary format: `prec` significand bits
(including the implicit bit), `emin` the exponent of one ulp at the
bottom of the subnormal range, `emax` the exponent of one ulp in the
topmost binade (spec section 3, float type abstraction). -/
structure FloatFmt where
  prec : ℕ
  emin : ℤ
  emax : ℤ
deriving DecidableEq, Repr

/-- IEEE binary64: 53 significand bits, subnormal ulp `2 ^ (-1074)`,
largest finite value `(2 ^ 53 - 1) * 2 ^ 971`. -/
def fmt64 : FloatFmt := ⟨53, -1074, 971⟩

/-- IEEE binary32: 24 significand bits, subnormal ulp `2 ^ (-149)`,
largest finite value `(2 ^ 24 - 1) * 2 ^ 104`. -/
def fmt32 : FloatFmt := ⟨24, -149, 104⟩

/-- Well-formedness of a float format. -/
def FloatFmt.wf (fmt : FloatFmt) : Prop :=
  2 ≤ fmt.prec ∧ fmt.emin < fmt.emax

theorem fmt64_wf : fmt64.wf := by constructor <;> decide

theorem fmt32_wf : fmt32.wf := by constructor <;> decide

/-- Result of the core parser: a nonnegative finite value `m * 2 ^ e`
(sign handling belongs to the collaborator) or positive infinity on
overflow. `+0` is represented as `finite 0 emin`. -/
inductive FltR where
  | finite (m : ℕ) (e : ℤ) : FltR
  | inf : FltR
deriving DecidableEq, Repr

/-- Rational value of a parser result; infinity is mapped to `0` and is
always handled separately in the statements below. -/
def FltR.val : FltR → ℚ
  | .finite m e => (m : ℚ) * (2 : ℚ) ^ e
  | .inf => 0

/-- Representable finite values of a format: mantissa below `2 ^ prec`,
exponent at least `emin`. -/
def FloatFmt.rep (fmt : FloatFmt) (m : ℕ) (e : ℤ) : Prop :=
  m < 2 ^ fmt.prec ∧ fmt.emin ≤ e

/-- Canonical representations: either the mantissa is normalized
(top bit set) or the exponent is the minimum one (subnormal). -/
def FloatFmt.canonical (fmt : FloatFmt) (m : ℕ) (e : ℤ) : Prop :=
  2 ^ (fmt.prec - 1) ≤ m ∨ e = fmt.emin

/-- Largest finite value of a format. -/
def FloatFmt.maxFinite (fmt : FloatFmt) : ℚ :=
  ((2 ^ fmt.prec - 1 : ℕ) : ℚ) * (2 : ℚ) ^ fmt.emax

/-- Overflow threshold: the midpoint between `maxFinite` and the next
power of two; exact values at or above it round to infinity under
round-to-nearest, ties-to-even. -/
def FloatFmt.overflowBound (fmt : FloatFmt) : ℚ :=
  ((2 ^ fmt.prec : ℚ) - 1 / 2) * (2 : ℚ) ^ fmt.emax

/-! ### Round to nearest integer, ties to even -/

/-- Round a nonnegative rational to the nearest natural number, ties to
even, as performed on the scaled significand (spec section 4.2). -/
def rndN (s : ℚ) : ℕ :=
  let m0 : ℕ := s.num.toNat / s.den
  let frac : ℚ := qsub s ((m0 : ℕ) : ℚ)
  if frac < mkRat 1 2 then m0
  else if mkRat 1 2 < frac then m0 + 1
  else if m0 % 2 = 0 then m0 else m0 + 1

/-- Round a positive rational to the float format `fmt` under
round-to-nearest ties-to-even: the unique algorithm of the correct
parsing cascade once the input digits have been evaluated exactly
(modelled from spec sections 4.2-4.3 and 8; the cascade's staged
implementation is not part of the visible sources). -/
def roundPos (fmt : FloatFmt) (q : ℚ) : FltR :=
  if q ≤ 0 then .finite 0 fmt.emin else
  let e : ℤ := max (ratLog2 q - (fmt.prec - 1 : ℤ)) fmt.emin
  if fmt.emax < e then .inf else
  let s : ℚ := qmul q (pow2Q (-e))
  let m1 : ℕ := rndN s
  if m1 = 2 ^ fmt.prec then
    if fmt.emax < e + 1 then .inf else .finite (2 ^ (fmt.prec - 1)) (e + 1)
  else .finite m1 e

/-! ### Properties of `rndN` (round to nearest integer, ties to even) -/

theorem floorN_eq (s : ℚ) (hs : 0 ≤ s) : ((s.num.toNat / s.den : ℕ) : ℤ) = ⌊s⌋ := by
  rw [Rat.floor_def]
  have hnum : 0 ≤ s.num := Rat.num_nonneg.mpr hs
  rw [← Int.toNat_of_nonneg hnum]
  exact (Int.ofNat_div s.num.toNat s.den).symm

theorem mkRat_one_two : (mkRat 1 2 : ℚ) = 1 / 2 := by
  rw [Rat.mkRat_eq_div]
  norm_num

theorem rndN_eq (s : ℚ) (hs : 0 ≤ s) :
    rndN s = if s - (⌊s⌋ : ℚ) < 1 / 2 then ⌊s⌋.toNat
      else if 1 / 2 < s - (⌊s⌋ : ℚ) then ⌊s⌋.toNat + 1
      else if ⌊s⌋.toNat % 2 = 0 then ⌊s⌋.toNat else ⌊s⌋.toNat + 1 := by
  have hge0 : (0:ℤ) ≤ ⌊s⌋ := Int.floor_nonneg.mpr hs
  have hfl : ((s.num.toNat / s.den : ℕ) : ℤ) = ⌊s⌋ := floorN_eq s hs
  have hfl2 : (s.num.toNat / s.den : ℕ) = ⌊s⌋.toNat := by omega
  have hcast : (((s.num.toNat / s.den : ℕ) : ℕ) : ℚ) = ((⌊s⌋ : ℤ) : ℚ) := by
    rw [hfl2, toNat_cast_q ⌊s⌋ (Int.floor_nonneg.mpr hs)]
  rw [rndN, qsub_eq, mkRat_one_two, hcast, hfl2]

theorem rndN_dist (s : ℚ) (hs : 0 ≤ s) :
    |((rndN s : ℕ) : ℚ) - s| ≤ 1 / 2 := by
  have h0 : (⌊s⌋ : ℚ) ≤ s := Int.floor_le s
  have h1 : s < (⌊s⌋ : ℚ) + 1 := Int.lt_floor_add_one s
  have hge : (0:ℤ) ≤ ⌊s⌋ := Int.floor_nonneg.mpr hs
  have hc : ((⌊s⌋.toNat : ℕ) : ℚ) = ((⌊s⌋ : ℤ) : ℚ) := toNat_cast_q ⌊s⌋ hge
  rw [rndN_eq s hs]
  split_ifs with hlt hgt hev
  · rw [hc, abs_sub_comm, abs_of_nonneg (by linarith)]
    linarith
  · push_cast [hc]
    rw [abs_of_nonneg (by push_cast at hgt ⊢; linarith)]
    push_cast
    linarith
  · rw [hc, abs_sub_comm, abs_of_nonneg (by linarith)]
    linarith
  · push_cast [hc]
    rw [abs_of_nonneg (by push_cast at hlt hgt ⊢; linarith)]
    push_cast
    linarith

theorem rndN_nearest (s : ℚ) (hs : 0 ≤ s) (k : ℤ) :
    |((rndN s : ℕ) : ℚ) - s| ≤ |(k : ℚ) - s| := by
  have h0 : (⌊s⌋ : ℚ) ≤ s := Int.floor_le s
  have h1 : s < (⌊s⌋ : ℚ) + 1 := Int.lt_floor_add_one s
  have hge : (0:ℤ) ≤ ⌊s⌋ := Int.floor_nonneg.mpr hs
  have hc : ((⌊s⌋.toNat : ℕ) : ℚ) = ((⌊s⌋ : ℤ) : ℚ) := toNat_cast_q ⌊s⌋ hge
  have hk : (k : ℚ) ≤ (⌊s⌋ : ℚ) ∨ ((⌊s⌋ : ℚ) + 1 ≤ (k : ℚ)) := by
    rcases le_or_lt k ⌊s⌋ with h | h
    · left
      exact_mod_cast h
    · right
      have : ⌊s⌋ + 1 ≤ k := h
      exact_mod_cast this
  have hkd : s - (⌊s⌋:ℚ) ≤ |(k : ℚ) - s| ∨ ((⌊s⌋:ℚ) + 1 - s ≤ |(k : ℚ) - s|) := by
    rcases hk with h | h
    · left
      rw [abs_sub_comm, abs_of_nonneg (by linarith)]
      linarith
    · right
      rw [abs_of_nonneg (by linarith)]
      linarith
  rw [rndN_eq s hs]
  split_ifs with hlt hgt hev
  · rw [hc, abs_sub_comm, abs_of_nonneg (by linarith)]
    rcases hkd with h | h
    · exact h
    · linarith
  · push_cast [hc]
    rw [abs_of_nonneg (by push_cast at hgt ⊢; linarith)]
    rcases hkd with h | h
    · push_cast at hgt ⊢
      linarith
    · push_cast at h ⊢
      linarith
  · rw [hc, abs_sub_comm, abs_of_nonneg (by linarith)]
    rcases hkd with h | h
    · exact h
    · push_cast at hlt hgt ⊢
      linarith
  · push_cast [hc]
    rw [abs_of_nonneg (by push_cast at hlt hgt ⊢; linarith)]
    rcases hkd with h | h
    · push_cast at hlt hgt h ⊢
      linarith
    · push_cast at h ⊢
      linarith

theorem rndN_tie_even (s : ℚ) (hs : 0 ≤ s) (k : ℤ)
    (hne : (k : ℚ) ≠ ((rndN s : ℕ) : ℚ))
    (heq : |(k : ℚ) - s| = |((rndN s : ℕ) : ℚ) - s|) :
    rndN s % 2 = 0 := by
  have h0 : (⌊s⌋ : ℚ) ≤ s := Int.floor_le s
  have h1 : s < (⌊s⌋ : ℚ) + 1 := Int.lt_floor_add_one s
  have hge : (0:ℤ) ≤ ⌊s⌋ := Int.floor_nonneg.mpr hs
  have hc : ((⌊s⌋.toNat : ℕ) : ℚ) = ((⌊s⌋ : ℤ) : ℚ) := toNat_cast_q ⌊s⌋ hge
  have hk : (k : ℚ) ≤ (⌊s⌋ : ℚ) ∨ ((⌊s⌋ : ℚ) + 1 ≤ (k : ℚ)) := by
    rcases le_or_lt k ⌊s⌋ with h | h
    · left
      exact_mod_cast h
    · right
      have h2 : ⌊s⌋ + 1 ≤ k := h
      exact_mod_cast h2
  have hrw := rndN_eq s hs
  by_cases hlt : s - (⌊s⌋ : ℚ) < 1 / 2
  · -- frac < 1/2, result is the floor: a distinct integer is strictly farther
    exfalso
    rw [hrw, if_pos hlt] at hne heq
    rw [hc] at hne heq
    have e1 : |((⌊s⌋:ℤ):ℚ) - s| = s - ((⌊s⌋:ℤ):ℚ) := by
      rw [abs_sub_comm]
      exact abs_of_nonneg (by linarith)
    rw [e1] at heq
    rcases hk with h | h
    · rcases lt_or_eq_of_le h with h2 | h2
      · have h3 : (k : ℚ) ≤ (⌊s⌋:ℚ) - 1 := by
          have h4 : k < ⌊s⌋ := by exact_mod_cast h2
          have h5 : k ≤ ⌊s⌋ - 1 := by omega
          calc (k:ℚ) ≤ ((⌊s⌋ - 1 : ℤ) : ℚ) := by exact_mod_cast h5
          _ = (⌊s⌋:ℚ) - 1 := by push_cast; ring
        have e2 : |((k:ℤ):ℚ) - s| = s - ((k:ℤ):ℚ) := by
          rw [abs_sub_comm]
          exact abs_of_nonneg (by linarith)
        rw [e2] at heq
        linarith
      · exact hne h2
    · have e2 : |((k:ℤ):ℚ) - s| = ((k:ℤ):ℚ) - s := abs_of_nonneg (by linarith)
      rw [e2] at heq
      linarith
  by_cases hgt : 1 / 2 < s - (⌊s⌋ : ℚ)
  · -- frac > 1/2, result is the floor + 1: a distinct integer is strictly farther
    exfalso
    rw [hrw, if_neg hlt, if_pos hgt] at hne heq
    have hc1 : (((⌊s⌋.toNat + 1 : ℕ)) : ℚ) = (⌊s⌋:ℚ) + 1 := by
      push_cast
      rw [hc]
    rw [hc1] at hne heq
    have e1 : |(⌊s⌋:ℚ) + 1 - s| = (⌊s⌋:ℚ) + 1 - s := abs_of_nonneg (by linarith)
    rw [e1] at heq
    rcases hk with h | h
    · have e2 : |((k:ℤ):ℚ) - s| = s - ((k:ℤ):ℚ) := by
        rw [abs_sub_comm]
        exact abs_of_nonneg (by linarith)
      rw [e2] at heq
      linarith
    · rcases lt_or_eq_of_le h with h2 | h2
      · have h3 : (⌊s⌋:ℚ) + 1 + 1 ≤ (k : ℚ) := by
          have h4 : ((⌊s⌋ + 1 : ℤ) : ℚ) < (k:ℚ) := by push_cast; linarith
          have h5 : ⌊s⌋ + 1 < k := by exact_mod_cast h4
          have h6 : ⌊s⌋ + 2 ≤ k := by omega
          calc (⌊s⌋:ℚ) + 1 + 1 = ((⌊s⌋ + 2 : ℤ) : ℚ) := by push_cast; ring
          _ ≤ (k:ℚ) := by exact_mod_cast h6
        have e2 : |((k:ℤ):ℚ) - s| = ((k:ℤ):ℚ) - s := abs_of_nonneg (by linarith)
        rw [e2] at heq
        linarith
      · exact hne h2.symm
  -- exact tie: by construction the chosen mantissa is even
  rw [hrw, if_neg hlt, if_neg hgt]
  by_cases hev : ⌊s⌋.toNat % 2 = 0
  · rw [if_pos hev]
    exact hev
  · rw [if_neg hev]
    omega

theorem rndN_le (s : ℚ) (hs : 0 ≤ s) : ((rndN s : ℕ) : ℚ) ≤ s + 1 := by
  have h1 : s < (⌊s⌋ : ℚ) + 1 := Int.lt_floor_add_one s
  have h0 : (⌊s⌋ : ℚ) ≤ s := Int.floor_le s
  have hge : (0:ℤ) ≤ ⌊s⌋ := Int.floor_nonneg.mpr hs
  have hc : ((⌊s⌋.toNat : ℕ) : ℚ) = ((⌊s⌋ : ℤ) : ℚ) := toNat_cast_q ⌊s⌋ hge
  rw [rndN_eq s hs]
  split_ifs <;> push_cast [hc] <;> linarith

theorem rndN_cases (s : ℚ) (hs : 0 ≤ s) :
    rndN s = ⌊s⌋.toNat ∨ rndN s = ⌊s⌋.toNat + 1 := by
  rw [rndN_eq s hs]
  split_ifs <;> simp

/-! ### Anatomy of `roundPos` -/

/-- Working exponent chosen by the rounding routine. -/
def eIdx (fmt : FloatFmt) (q : ℚ) : ℤ :=
  max (ratLog2 q - (fmt.prec - 1 : ℤ)) fmt.emin

/-- Scaled significand: the input divided by `2 ^ eIdx`. -/
def sVal (fmt : FloatFmt) (q : ℚ) : ℚ := q * (2 : ℚ) ^ (-(eIdx fmt q))

theorem roundPos_pos_eq (fmt : FloatFmt) (q : ℚ) (hq : 0 < q) :
    roundPos fmt q =
      if fmt.emax < eIdx fmt q then .inf else
      if rndN (sVal fmt q) = 2 ^ fmt.prec then
        (if fmt.emax < eIdx fmt q + 1 then FltR.inf
         else .finite (2 ^ (fmt.prec - 1)) (eIdx fmt q + 1))
      else .finite (rndN (sVal fmt q)) (eIdx fmt q) := by
  rw [roundPos, if_neg (not_le.mpr hq)]
  simp only [qmul_eq, pow2Q_eq]
  rfl

theorem sVal_pos (fmt : FloatFmt) (q : ℚ) (hq : 0 < q) : 0 < sVal fmt q := by
  rw [sVal]
  positivity

theorem sVal_lt (fmt : FloatFmt) (q : ℚ) (hq : 0 < q) :
    sVal fmt q < (2 : ℚ) ^ (fmt.prec : ℤ) := by
  have hlog := (ratLog2_spec q hq).2
  have he : ratLog2 q - (fmt.prec - 1 : ℤ) ≤ eIdx fmt q := le_max_left _ _
  rw [sVal]
  have h2 : (0:ℚ) < (2:ℚ) ^ (-(eIdx fmt q)) := by positivity
  calc q * (2:ℚ) ^ (-(eIdx fmt q)) < (2:ℚ) ^ (ratLog2 q + 1) * (2:ℚ) ^ (-(eIdx fmt q)) := by
        exact mul_lt_mul_of_pos_right hlog h2
  _ = (2:ℚ) ^ (ratLog2 q + 1 - eIdx fmt q) := by
        rw [← zpow_add₀ (by norm_num : (2:ℚ) ≠ 0)]
        congr 1
  _ ≤ (2:ℚ) ^ ((fmt.prec : ℤ)) := by
        apply zpow_le_of_le (by norm_num : (1:ℚ) ≤ 2)
        omega

theorem sVal_ge_of_normal (fmt : FloatFmt) (q : ℚ) (hq : 0 < q)
    (h : fmt.emin < eIdx fmt q) :
    (2 : ℚ) ^ ((fmt.prec : ℤ) - 1) ≤ sVal fmt q := by
  have heq : eIdx fmt q = ratLog2 q - (fmt.prec - 1 : ℤ) := by
    rw [eIdx] at h ⊢
    omega
  have hlog := (ratLog2_spec q hq).1
  rw [sVal, heq]
  have h2 : (0:ℚ) < (2:ℚ) ^ (-(ratLog2 q - (fmt.prec - 1 : ℤ))) := by positivity
  have key : (2:ℚ) ^ ((fmt.prec : ℤ) - 1)
      = (2:ℚ) ^ (ratLog2 q) * (2:ℚ) ^ (-(ratLog2 q - (fmt.prec - 1 : ℤ))) := by
    rw [← zpow_add₀ (by norm_num : (2:ℚ) ≠ 0)]
    congr 1
    ring
  rw [key]
  exact mul_le_mul_of_nonneg_right hlog (le_of_lt h2)

theorem rndN_sVal_le (fmt : FloatFmt) (q : ℚ) (hq : 0 < q) :
    rndN (sVal fmt q) ≤ 2 ^ fmt.prec := by
  have h1 := rndN_le (sVal fmt q) (le_of_lt (sVal_pos fmt q hq))
  have h2 := sVal_lt fmt q hq
  have h3 : ((rndN (sVal fmt q) : ℕ) : ℚ) < (2:ℚ) ^ ((fmt.prec : ℤ)) + 1 := by linarith
  have h4 : ((2:ℚ)) ^ ((fmt.prec : ℤ)) = ((2 ^ fmt.prec : ℕ) : ℚ) := (natCast_two_pow _).symm
  rw [h4] at h3
  have h5 : ((rndN (sVal fmt q) : ℕ) : ℚ) < (((2 ^ fmt.prec + 1 : ℕ)) : ℚ) := by
    push_cast
    push_cast at h3
    linarith
  have h6 : rndN (sVal fmt q) < 2 ^ fmt.prec + 1 := by exact_mod_cast h5
  omega

/-- Every finite result of `roundPos` on a positive input has value
`rndN (sVal) * 2 ^ eIdx`, is representable, canonical, and its exponent
does not exceed `emax`. -/
theorem roundPos_finite_anatomy (fmt : FloatFmt) (hw : fmt.wf) (q : ℚ) (hq : 0 < q)
    (M : ℕ) (E : ℤ) (h : roundPos fmt q = .finite M E) :
    (M : ℚ) * (2:ℚ) ^ E = ((rndN (sVal fmt q) : ℕ) : ℚ) * (2:ℚ) ^ (eIdx fmt q) ∧
    M < 2 ^ fmt.prec ∧ fmt.emin ≤ E ∧ fmt.canonical M E ∧ E ≤ fmt.emax ∧
    (M = rndN (sVal fmt q) ∨
      (M = 2 ^ (fmt.prec - 1) ∧ rndN (sVal fmt q) = 2 ^ fmt.prec)) := by
  obtain ⟨hp, hee⟩ := hw
  rw [roundPos_pos_eq fmt q hq] at h
  by_cases h1 : fmt.emax < eIdx fmt q
  · rw [if_pos h1] at h
    exact absurd h (by simp)
  rw [if_neg h1] at h
  have hemin : fmt.emin ≤ eIdx fmt q := le_max_right _ _
  by_cases h2 : rndN (sVal fmt q) = 2 ^ fmt.prec
  · rw [if_pos h2] at h
    by_cases h3 : fmt.emax < eIdx fmt q + 1
    · rw [if_pos h3] at h
      exact absurd h (by simp)
    · rw [if_neg h3] at h
      have hME : M = 2 ^ (fmt.prec - 1) ∧ E = eIdx fmt q + 1 := by
        constructor <;> [skip; skip] <;> cases h <;> rfl
      obtain ⟨hM, hE⟩ := hME
      refine ⟨?_, ?_, ?_, ?_, ?_, ?_⟩
      · rw [hM, hE, h2]
        rw [zpow_add₀ (by norm_num : (2:ℚ) ≠ 0), zpow_one]
        push_cast
        have hps : (2:ℚ) ^ (fmt.prec - 1) * 2 = (2:ℚ) ^ fmt.prec := by
          rw [← pow_succ]
          congr 1
          omega
        calc (2:ℚ) ^ (fmt.prec - 1) * ((2:ℚ) ^ (eIdx fmt q) * 2)
            = ((2:ℚ) ^ (fmt.prec - 1) * 2) * (2:ℚ) ^ (eIdx fmt q) := by ring
        _ = (2:ℚ) ^ fmt.prec * (2:ℚ) ^ (eIdx fmt q) := by rw [hps]
      · rw [hM]
        exact Nat.pow_lt_pow_right (by norm_num) (by omega)
      · omega
      · left
        rw [hM]
      · omega
      · right
        exact ⟨hM, h2⟩
  · rw [if_neg h2] at h
    have hME : M = rndN (sVal fmt q) ∧ E = eIdx fmt q := by
      constructor <;> cases h <;> rfl
    obtain ⟨hM, hE⟩ := hME
    have hle := rndN_sVal_le fmt q hq
    refine ⟨?_, ?_, ?_, ?_, ?_, Or.inl hM⟩
    · rw [hM, hE]
    · omega
    · omega
    · by_cases h4 : fmt.emin < eIdx fmt q
      · left
        rw [hM]
        have hs1 := sVal_ge_of_normal fmt q hq h4
        have hs0 := sVal_pos fmt q hq
        -- rndN s ≥ s - 1/2 > 2^(prec-1) - 1, so rndN s ≥ 2^(prec-1)
        have hd := rndN_dist (sVal fmt q) (le_of_lt hs0)
        have hlb : ((rndN (sVal fmt q) : ℕ) : ℚ) ≥ sVal fmt q - 1/2 := by
          rcases abs_le.mp hd with ⟨hl, _⟩
          linarith
        have hcast : ((2:ℚ)) ^ ((fmt.prec : ℤ) - 1) = ((2 ^ (fmt.prec - 1) : ℕ) : ℚ) := by
          rw [natCast_two_pow]
          congr 1
          omega
        have : ((rndN (sVal fmt q) : ℕ) : ℚ) > ((2 ^ (fmt.prec - 1) : ℕ) : ℚ) - 1 := by
          rw [← hcast]
          linarith
        have h5 : rndN (sVal fmt q) + 1 > 2 ^ (fmt.prec - 1) := by
          have := this
          push_cast at this
          exact_mod_cast (by linarith : ((rndN (sVal fmt q) : ℕ) : ℚ) + 1 > ((2 ^ (fmt.prec - 1) : ℕ) : ℚ))
        omega
      · right
        rw [hE]
        omega
    · omega

theorem sVal_mul (fmt : FloatFmt) (q : ℚ) : sVal fmt q * (2:ℚ) ^ (eIdx fmt q) = q := by
  rw [sVal, mul_assoc, ← zpow_add₀ (by norm_num : (2:ℚ) ≠ 0)]
  simp

theorem zpow_predCast (p : ℕ) (hp : 1 ≤ p) : (2:ℚ) ^ ((p:ℤ) - 1) = (2:ℚ) ^ (p - 1 : ℕ) := by
  rw [← zpow_natCast (2:ℚ) (p - 1)]
  congr 1
  omega

/-- A competitor below the working binade is strictly farther from the
input than the rounded result. -/
theorem roundPos_below_strict (fmt : FloatFmt) (hw : fmt.wf) (q : ℚ) (hq : 0 < q)
    (M : ℕ) (E : ℤ) (h : roundPos fmt q = .finite M E)
    (m : ℕ) (e : ℤ) (hm : m < 2 ^ fmt.prec) (he : fmt.emin ≤ e)
    (hce : e < eIdx fmt q) :
    |(M:ℚ) * (2:ℚ) ^ E - q| < |(m:ℚ) * (2:ℚ) ^ e - q| := by
  obtain ⟨hval, hMlt, hEmin, hcan, hEmax, hassoc⟩ := roundPos_finite_anatomy fmt hw q hq M E h
  obtain ⟨hp, hee⟩ := hw
  have hs0 : 0 < sVal fmt q := sVal_pos fmt q hq
  have hqs : sVal fmt q * (2:ℚ) ^ (eIdx fmt q) = q := sVal_mul fmt q
  have hpow : (0:ℚ) < (2:ℚ) ^ (eIdx fmt q) := by positivity
  have hpe : (0:ℚ) < (2:ℚ) ^ e := by positivity
  have hlin : (((rndN (sVal fmt q) : ℕ) : ℚ) - sVal fmt q) * (2:ℚ) ^ (eIdx fmt q)
      = ((rndN (sVal fmt q) : ℕ) : ℚ) * (2:ℚ) ^ (eIdx fmt q) - q := by
    rw [sub_mul, hqs]
  have hds : |(M:ℚ) * (2:ℚ) ^ E - q|
      = |((rndN (sVal fmt q) : ℕ) : ℚ) - sVal fmt q| * (2:ℚ) ^ (eIdx fmt q) := by
    rw [hval, ← hlin, abs_mul, abs_of_pos hpow]
  have hesmin : fmt.emin < eIdx fmt q := lt_of_le_of_lt he hce
  have hsn := sVal_ge_of_normal fmt q hq hesmin
  have hm1 : ((m:ℚ)) + 1 ≤ (2:ℚ) ^ ((fmt.prec : ℤ)) := by
    have h1 : m + 1 ≤ 2 ^ fmt.prec := hm
    have h2 : ((m + 1 : ℕ) : ℚ) ≤ ((2 ^ fmt.prec : ℕ) : ℚ) := by exact_mod_cast h1
    rw [natCast_two_pow] at h2
    push_cast at h2
    linarith
  have hwb : (m:ℚ) * (2:ℚ)^e ≤ (2:ℚ) ^ ((fmt.prec:ℤ) - 1) * (2:ℚ) ^ (eIdx fmt q) - (2:ℚ)^e := by
    have h1 : (m:ℚ) * (2:ℚ)^e ≤ ((2:ℚ) ^ ((fmt.prec:ℤ)) - 1) * (2:ℚ)^e :=
      mul_le_mul_of_nonneg_right (by linarith) (le_of_lt hpe)
    have h2 : (2:ℚ) ^ ((fmt.prec:ℤ)) * (2:ℚ)^e ≤ (2:ℚ) ^ ((fmt.prec:ℤ) - 1) * (2:ℚ) ^ (eIdx fmt q) := by
      rw [← zpow_add₀ (by norm_num : (2:ℚ) ≠ 0), ← zpow_add₀ (by norm_num : (2:ℚ) ≠ 0)]
      apply zpow_le_of_le (by norm_num : (1:ℚ) ≤ 2)
      omega
    calc (m:ℚ) * (2:ℚ)^e ≤ ((2:ℚ) ^ ((fmt.prec:ℤ)) - 1) * (2:ℚ)^e := h1
    _ = (2:ℚ) ^ ((fmt.prec:ℤ)) * (2:ℚ)^e - (2:ℚ)^e := by ring
    _ ≤ (2:ℚ) ^ ((fmt.prec:ℤ) - 1) * (2:ℚ) ^ (eIdx fmt q) - (2:ℚ)^e := by linarith
  have hbot : (2:ℚ) ^ ((fmt.prec:ℤ) - 1) * (2:ℚ) ^ (eIdx fmt q) ≤ q := by
    calc (2:ℚ) ^ ((fmt.prec:ℤ) - 1) * (2:ℚ) ^ (eIdx fmt q)
        ≤ sVal fmt q * (2:ℚ) ^ (eIdx fmt q) := mul_le_mul_of_nonneg_right hsn (le_of_lt hpow)
    _ = q := hqs
  have hwlt : (m:ℚ) * (2:ℚ)^e < q := by linarith
  have hcomp : |(m:ℚ) * (2:ℚ) ^ e - q| = q - (m:ℚ) * (2:ℚ)^e := by
    rw [abs_sub_comm]
    exact abs_of_nonneg (by linarith)
  have hkey : (sVal fmt q - (2:ℚ) ^ ((fmt.prec:ℤ) - 1)) * (2:ℚ) ^ (eIdx fmt q)
      = q - (2:ℚ) ^ ((fmt.prec:ℤ) - 1) * (2:ℚ) ^ (eIdx fmt q) := by
    rw [sub_mul, hqs]
  have h2 : q - (m:ℚ) * (2:ℚ)^e
      ≥ (sVal fmt q - (2:ℚ) ^ ((fmt.prec:ℤ) - 1)) * (2:ℚ) ^ (eIdx fmt q) + (2:ℚ)^e := by
    rw [hkey]
    linarith
  rw [hds, hcomp]
  by_cases hA : (2:ℚ) ^ ((fmt.prec:ℤ) - 1) + 1/2 ≤ sVal fmt q
  · -- scaled significand at least half an ulp above the binade bottom
    have h1 : |((rndN (sVal fmt q) : ℕ) : ℚ) - sVal fmt q| * (2:ℚ) ^ (eIdx fmt q)
        ≤ (1/2) * (2:ℚ) ^ (eIdx fmt q) :=
      mul_le_mul_of_nonneg_right (rndN_dist (sVal fmt q) (le_of_lt hs0)) (le_of_lt hpow)
    have h3 : (sVal fmt q - (2:ℚ) ^ ((fmt.prec:ℤ) - 1)) * (2:ℚ) ^ (eIdx fmt q)
        ≥ (1/2) * (2:ℚ) ^ (eIdx fmt q) :=
      mul_le_mul_of_nonneg_right (by linarith) (le_of_lt hpow)
    linarith
  · -- scaled significand within half an ulp of the binade bottom: rounds down to it
    push_neg at hA
    have hnp : (2:ℚ) ^ ((fmt.prec:ℤ) - 1) = (((2 ^ (fmt.prec - 1) : ℕ) : ℤ) : ℚ) := by
      rw [zpow_predCast fmt.prec (by omega)]
      push_cast
      ring
    have hfl : ⌊sVal fmt q⌋ = ((2 ^ (fmt.prec - 1) : ℕ) : ℤ) := by
      rw [Int.floor_eq_iff]
      constructor
      · rw [← hnp]
        exact hsn
      · rw [← hnp]
        linarith
    have hfrac : sVal fmt q - (⌊sVal fmt q⌋ : ℚ) < 1/2 := by
      rw [hfl, ← hnp]
      linarith
    have hrnd : rndN (sVal fmt q) = 2 ^ (fmt.prec - 1) := by
      rw [rndN_eq (sVal fmt q) (le_of_lt hs0), if_pos hfrac, hfl]
      exact Int.toNat_natCast _
    have hcast : ((rndN (sVal fmt q) : ℕ) : ℚ) = (2:ℚ) ^ ((fmt.prec:ℤ) - 1) := by
      rw [hrnd, hnp]
      push_cast
      ring
    have hd0 : |((rndN (sVal fmt q) : ℕ) : ℚ) - sVal fmt q|
        = sVal fmt q - (2:ℚ) ^ ((fmt.prec:ℤ) - 1) := by
      rw [hcast, abs_sub_comm]
      exact abs_of_nonneg (by linarith)
    rw [hd0]
    linarith

/-- Correct rounding, part 1: the result of `roundPos` is at least as
close to the exact input as any representable value of the format. -/
theorem roundPos_nearest (fmt : FloatFmt) (hw : fmt.wf) (q : ℚ) (hq : 0 < q)
    (M : ℕ) (E : ℤ) (h : roundPos fmt q = .finite M E)
    (m : ℕ) (e : ℤ) (hm : m < 2 ^ fmt.prec) (he : fmt.emin ≤ e) :
    |(M:ℚ) * (2:ℚ) ^ E - q| ≤ |(m:ℚ) * (2:ℚ) ^ e - q| := by
  obtain ⟨hval, hMlt, hEmin, hcan, hEmax, hassoc⟩ := roundPos_finite_anatomy fmt hw q hq M E h
  have hs0 : 0 < sVal fmt q := sVal_pos fmt q hq
  have hqs : sVal fmt q * (2:ℚ) ^ (eIdx fmt q) = q := sVal_mul fmt q
  have hpow : (0:ℚ) < (2:ℚ) ^ (eIdx fmt q) := by positivity
  rcases lt_or_le e (eIdx fmt q) with hce | hce
  · exact le_of_lt (roundPos_below_strict fmt hw q hq M E h m e hm he hce)
  · have hlin : (((rndN (sVal fmt q) : ℕ) : ℚ) - sVal fmt q) * (2:ℚ) ^ (eIdx fmt q)
        = ((rndN (sVal fmt q) : ℕ) : ℚ) * (2:ℚ) ^ (eIdx fmt q) - q := by
      rw [sub_mul, hqs]
    have hds : |(M:ℚ) * (2:ℚ) ^ E - q|
        = |((rndN (sVal fmt q) : ℕ) : ℚ) - sVal fmt q| * (2:ℚ) ^ (eIdx fmt q) := by
      rw [hval, ← hlin, abs_mul, abs_of_pos hpow]
    have hkval : (((m * 2 ^ ((e - eIdx fmt q).toNat) : ℕ) : ℤ) : ℚ) * (2:ℚ) ^ (eIdx fmt q)
        = (m:ℚ) * (2:ℚ) ^ e := by
      push_cast
      rw [mul_assoc]
      congr 1
      rw [← zpow_natCast (2:ℚ) ((e - eIdx fmt q).toNat), ← zpow_add₀ (by norm_num : (2:ℚ) ≠ 0)]
      congr 1
      omega
    have hlin2 : ((((m * 2 ^ ((e - eIdx fmt q).toNat) : ℕ) : ℤ) : ℚ) - sVal fmt q) * (2:ℚ) ^ (eIdx fmt q)
        = (m:ℚ) * (2:ℚ) ^ e - q := by
      rw [sub_mul, hqs, hkval]
    have hcomp : |(m:ℚ) * (2:ℚ) ^ e - q|
        = |(((m * 2 ^ ((e - eIdx fmt q).toNat) : ℕ) : ℤ) : ℚ) - sVal fmt q| * (2:ℚ) ^ (eIdx fmt q) := by
      rw [← hlin2, abs_mul, abs_of_pos hpow]
    rw [hds, hcomp]
    exact mul_le_mul_of_nonneg_right
      (rndN_nearest (sVal fmt q) (le_of_lt hs0) ((m * 2 ^ ((e - eIdx fmt q).toNat) : ℕ) : ℤ))
      (le_of_lt hpow)

/-- Correct rounding, part 2: when a distinct representable value is at
the same distance from the input (a halfway case), the chosen mantissa is
even (NearestTiesEven). -/
theorem roundPos_tie_even (fmt : FloatFmt) (hw : fmt.wf) (q : ℚ) (hq : 0 < q)
    (M : ℕ) (E : ℤ) (h : roundPos fmt q = .finite M E)
    (m : ℕ) (e : ℤ) (hm : m < 2 ^ fmt.prec) (he : fmt.emin ≤ e)
    (hne : (m:ℚ) * (2:ℚ) ^ e ≠ (M:ℚ) * (2:ℚ) ^ E)
    (heq : |(m:ℚ) * (2:ℚ) ^ e - q| = |(M:ℚ) * (2:ℚ) ^ E - q|) :
    M % 2 = 0 := by
  obtain ⟨hval, hMlt, hEmin, hcan, hEmax, hassoc⟩ := roundPos_finite_anatomy fmt hw q hq M E h
  obtain ⟨hp, hee⟩ := hw
  have hs0 : 0 < sVal fmt q := sVal_pos fmt q hq
  have hqs : sVal fmt q * (2:ℚ) ^ (eIdx fmt q) = q := sVal_mul fmt q
  have hpow : (0:ℚ) < (2:ℚ) ^ (eIdx fmt q) := by positivity
  have hlin : (((rndN (sVal fmt q) : ℕ) : ℚ) - sVal fmt q) * (2:ℚ) ^ (eIdx fmt q)
      = ((rndN (sVal fmt q) : ℕ) : ℚ) * (2:ℚ) ^ (eIdx fmt q) - q := by
    rw [sub_mul, hqs]
  have hds : |(M:ℚ) * (2:ℚ) ^ E - q|
      = |((rndN (sVal fmt q) : ℕ) : ℚ) - sVal fmt q| * (2:ℚ) ^ (eIdx fmt q) := by
    rw [hval, ← hlin, abs_mul, abs_of_pos hpow]
  rcases lt_or_le e (eIdx fmt q) with hce | hce
  · exact absurd heq (ne_of_gt (by
      have := roundPos_below_strict fmt ⟨hp, hee⟩ q hq M E h m e hm he hce
      linarith))
  · have hkval : (((m * 2 ^ ((e - eIdx fmt q).toNat) : ℕ) : ℤ) : ℚ) * (2:ℚ) ^ (eIdx fmt q)
        = (m:ℚ) * (2:ℚ) ^ e := by
      push_cast
      rw [mul_assoc]
      congr 1
      rw [← zpow_natCast (2:ℚ) ((e - eIdx fmt q).toNat), ← zpow_add₀ (by norm_num : (2:ℚ) ≠ 0)]
      congr 1
      omega
    have hlin2 : ((((m * 2 ^ ((e - eIdx fmt q).toNat) : ℕ) : ℤ) : ℚ) - sVal fmt q) * (2:ℚ) ^ (eIdx fmt q)
        = (m:ℚ) * (2:ℚ) ^ e - q := by
      rw [sub_mul, hqs, hkval]
    have hcomp : |(m:ℚ) * (2:ℚ) ^ e - q|
        = |(((m * 2 ^ ((e - eIdx fmt q).toNat) : ℕ) : ℤ) : ℚ) - sVal fmt q| * (2:ℚ) ^ (eIdx fmt q) := by
      rw [← hlin2, abs_mul, abs_of_pos hpow]
    have heq2 : |(((m * 2 ^ ((e - eIdx fmt q).toNat) : ℕ) : ℤ) : ℚ) - sVal fmt q|
        = |((rndN (sVal fmt q) : ℕ) : ℚ) - sVal fmt q| := by
      have h1 := heq
      rw [hcomp, hds] at h1
      exact mul_right_cancel₀ (ne_of_gt hpow) h1
    have hne2 : (((m * 2 ^ ((e - eIdx fmt q).toNat) : ℕ) : ℤ) : ℚ) ≠ ((rndN (sVal fmt q) : ℕ) : ℚ) := by
      intro hcontra
      apply hne
      rw [hval, ← hkval, hcontra]
    have hev := rndN_tie_even (sVal fmt q) (le_of_lt hs0)
      ((m * 2 ^ ((e - eIdx fmt q).toNat) : ℕ) : ℤ) hne2 heq2
    rcases hassoc with hM | ⟨hM, _⟩
    · omega
    · rw [hM]
      have h1 : Even (2 ^ (fmt.prec - 1)) := by
        rw [Nat.even_pow]
        exact ⟨by norm_num, by omega⟩
      rcases h1 with ⟨t, ht⟩
      omega

/-! ### Overflow, underflow, canonical uniqueness -/

theorem two_pow_sub_half (p : ℕ) (hp : 1 ≤ p) :
    (2:ℚ) ^ ((p:ℤ)) - 1/2 ≥ (2:ℚ) ^ ((p:ℤ) - 1) := by
  have h : (2:ℚ) ^ ((p:ℤ)) = (2:ℚ) ^ ((p:ℤ) - 1) * 2 := by
    rw [← zpow_add_one₀ (by norm_num : (2:ℚ) ≠ 0)]
    congr 1
    omega
  have h1 : (1:ℚ) ≤ (2:ℚ) ^ ((p:ℤ) - 1) := one_le_zpow₀ (by norm_num) (by omega)
  linarith

/-- Overflow characterization: under ties-to-even, a positive input maps
to infinity exactly when it is at least the overflow threshold
`(2 ^ prec - 1/2) * 2 ^ emax`. -/
theorem roundPos_inf_iff (fmt : FloatFmt) (hw : fmt.wf) (q : ℚ) (hq : 0 < q) :
    roundPos fmt q = .inf ↔ fmt.overflowBound ≤ q := by
  obtain ⟨hp, hee⟩ := hw
  have hs0 : 0 < sVal fmt q := sVal_pos fmt q hq
  have hqs : sVal fmt q * (2:ℚ) ^ (eIdx fmt q) = q := sVal_mul fmt q
  have hpow : (0:ℚ) < (2:ℚ) ^ (eIdx fmt q) := by positivity
  have hob : fmt.overflowBound = ((2:ℚ) ^ ((fmt.prec:ℤ)) - 1/2) * (2:ℚ) ^ fmt.emax := by
    rw [FloatFmt.overflowBound]
    congr 2
    rw [← zpow_natCast (2:ℚ) fmt.prec]
  constructor
  · intro h
    rw [roundPos_pos_eq fmt q hq] at h
    by_cases h1 : fmt.emax < eIdx fmt q
    · -- exponent already too large: q at least 2 ^ (prec + emax)
      have hL : fmt.emax < ratLog2 q - (fmt.prec - 1 : ℤ) := by
        rw [eIdx] at h1
        omega
      have h2 : (2:ℚ) ^ (ratLog2 q) ≤ q := (ratLog2_spec q hq).1
      have h3 : (2:ℚ) ^ ((fmt.prec:ℤ) + fmt.emax) ≤ (2:ℚ) ^ (ratLog2 q) := by
        apply zpow_le_of_le (by norm_num : (1:ℚ) ≤ 2)
        omega
      have h4 : ((2:ℚ) ^ ((fmt.prec:ℤ)) - 1/2) * (2:ℚ) ^ fmt.emax ≤ (2:ℚ) ^ ((fmt.prec:ℤ) + fmt.emax) := by
        rw [zpow_add₀ (by norm_num : (2:ℚ) ≠ 0)]
        have h5 : (0:ℚ) < (2:ℚ) ^ fmt.emax := by positivity
        nlinarith
      rw [hob]
      linarith
    · rw [if_neg h1] at h
      by_cases h2 : rndN (sVal fmt q) = 2 ^ fmt.prec
      · rw [if_pos h2] at h
        by_cases h3 : fmt.emax < eIdx fmt q + 1
        · -- renormalization overflows: eIdx = emax and s rounds to 2 ^ prec
          have hE : eIdx fmt q = fmt.emax := by omega
          have hd := rndN_dist (sVal fmt q) (le_of_lt hs0)
          have hc : ((rndN (sVal fmt q) : ℕ) : ℚ) = (2:ℚ) ^ ((fmt.prec:ℤ)) := by
            rw [h2, natCast_two_pow]
          have hslb : (2:ℚ) ^ ((fmt.prec:ℤ)) - 1/2 ≤ sVal fmt q := by
            rcases abs_le.mp hd with ⟨_, hr⟩
            rw [hc] at hr
            linarith
          rw [hob, ← hE]
          calc ((2:ℚ) ^ ((fmt.prec:ℤ)) - 1/2) * (2:ℚ) ^ (eIdx fmt q)
              ≤ sVal fmt q * (2:ℚ) ^ (eIdx fmt q) :=
                mul_le_mul_of_nonneg_right hslb (le_of_lt hpow)
          _ = q := hqs
        · rw [if_neg h3] at h
          exact absurd h (by simp)
      · rw [if_neg h2] at h
        exact absurd h (by simp)
  · intro h
    rw [roundPos_pos_eq fmt q hq]
    by_cases h1 : fmt.emax < eIdx fmt q
    · rw [if_pos h1]
    · rw [if_neg h1]
      -- overflow threshold forces the top binade
      have hq2 : (2:ℚ) ^ ((fmt.prec:ℤ) - 1 + fmt.emax) ≤ q := by
        rw [hob] at h
        have h4 : (2:ℚ) ^ ((fmt.prec:ℤ) - 1) * (2:ℚ) ^ fmt.emax ≤ ((2:ℚ) ^ ((fmt.prec:ℤ)) - 1/2) * (2:ℚ) ^ fmt.emax := by
          apply mul_le_mul_of_nonneg_right (two_pow_sub_half fmt.prec (by omega)) (by positivity)
        rw [← zpow_add₀ (by norm_num : (2:ℚ) ≠ 0)] at h4
        linarith
      have hL : (fmt.prec:ℤ) - 1 + fmt.emax ≤ ratLog2 q := by
        by_contra hcon
        push_neg at hcon
        have h5 : q < (2:ℚ) ^ (ratLog2 q + 1) := (ratLog2_spec q hq).2
        have h6 : (2:ℚ) ^ (ratLog2 q + 1) ≤ (2:ℚ) ^ ((fmt.prec:ℤ) - 1 + fmt.emax) := by
          apply zpow_le_of_le (by norm_num : (1:ℚ) ≤ 2)
          omega
        linarith
      have hE : eIdx fmt q = fmt.emax := by
        rw [eIdx] at h1 ⊢
        omega
      have hslb : (2:ℚ) ^ ((fmt.prec:ℤ)) - 1/2 ≤ sVal fmt q := by
        rw [hob] at h
        rw [sVal, hE]
        have h5 : (0:ℚ) < (2:ℚ) ^ (-fmt.emax) := by positivity
        calc (2:ℚ) ^ ((fmt.prec:ℤ)) - 1/2
            = ((2:ℚ) ^ ((fmt.prec:ℤ)) - 1/2) * (2:ℚ) ^ fmt.emax * (2:ℚ) ^ (-fmt.emax) := by
              rw [mul_assoc, ← zpow_add₀ (by norm_num : (2:ℚ) ≠ 0)]
              simp
        _ ≤ q * (2:ℚ) ^ (-fmt.emax) := mul_le_mul_of_nonneg_right h (le_of_lt h5)
      have hsub : sVal fmt q < (2:ℚ) ^ ((fmt.prec:ℤ)) := sVal_lt fmt q hq
      have h2p : (1:ℕ) ≤ 2 ^ fmt.prec := Nat.one_le_two_pow
      have hflq : ⌊sVal fmt q⌋ = ((2 ^ fmt.prec - 1 : ℕ) : ℤ) := by
        rw [Int.floor_eq_iff]
        have hcn : (((2 ^ fmt.prec - 1 : ℕ) : ℤ) : ℚ) = (2:ℚ) ^ ((fmt.prec:ℤ)) - 1 := by
          push_cast [h2p]
          rw [zpow_natCast]
        constructor
        · rw [hcn]
          linarith
        · rw [hcn]
          linarith
      have hrnd : rndN (sVal fmt q) = 2 ^ fmt.prec := by
        rw [rndN_eq (sVal fmt q) (le_of_lt hs0), hflq]
        have hcn : (((2 ^ fmt.prec - 1 : ℕ) : ℤ) : ℚ) = (2:ℚ) ^ ((fmt.prec:ℤ)) - 1 := by
          push_cast [h2p]
          rw [zpow_natCast]
        rw [hcn]
        have hnotlt : ¬ (sVal fmt q - ((2:ℚ) ^ ((fmt.prec:ℤ)) - 1) < 1/2) := by
          push_neg
          linarith
        rw [if_neg hnotlt]
        have htn : ((2 ^ fmt.prec - 1 : ℕ) : ℤ).toNat = 2 ^ fmt.prec - 1 := Int.toNat_natCast _
        by_cases hhalf : 1/2 < sVal fmt q - ((2:ℚ) ^ ((fmt.prec:ℤ)) - 1)
        · rw [if_pos hhalf, htn]
          omega
        · rw [if_neg hhalf, htn]
          have hodd : (2 ^ fmt.prec - 1) % 2 = 1 := by
            have hev : Even (2 ^ fmt.prec) := by
              rw [Nat.even_pow]
              exact ⟨by norm_num, by omega⟩
            rcases hev with ⟨t, ht⟩
            omega
          rw [if_neg (by omega)]
          omega
      rw [if_pos hrnd, if_pos (by omega : fmt.emax < eIdx fmt q + 1)]

/-- Underflow characterization: a positive input rounds to `+0` exactly
when it is at most half the smallest positive subnormal. -/
theorem roundPos_zero_iff (fmt : FloatFmt) (hw : fmt.wf) (q : ℚ) (hq : 0 < q) :
    roundPos fmt q = .finite 0 fmt.emin ↔ q ≤ (2:ℚ) ^ (fmt.emin - 1) := by
  obtain ⟨hp, hee⟩ := hw
  have hs0 : 0 < sVal fmt q := sVal_pos fmt q hq
  have hqs : sVal fmt q * (2:ℚ) ^ (eIdx fmt q) = q := sVal_mul fmt q
  have hpow : (0:ℚ) < (2:ℚ) ^ (eIdx fmt q) := by positivity
  constructor
  · intro h
    obtain ⟨hval, _, _, _, _, hassoc⟩ :=
      roundPos_finite_anatomy fmt ⟨hp, hee⟩ q hq 0 fmt.emin h
    have hrz : rndN (sVal fmt q) = 0 := by
      rcases hassoc with hM | ⟨hM, _⟩
      · omega
      · exfalso
        have : (0:ℕ) = 2 ^ (fmt.prec - 1) := hM
        have h2 : (1:ℕ) ≤ 2 ^ (fmt.prec - 1) := Nat.one_le_two_pow
        omega
    have hshalf : sVal fmt q ≤ 1/2 := by
      have hd := rndN_dist (sVal fmt q) (le_of_lt hs0)
      rw [hrz] at hd
      rcases abs_le.mp hd with ⟨hl, _⟩
      push_cast at hl
      linarith
    have hEmin : eIdx fmt q = fmt.emin := by
      by_contra hcon
      have h1 : fmt.emin < eIdx fmt q := by
        have := le_max_right (ratLog2 q - (fmt.prec - 1 : ℤ)) fmt.emin
        rw [eIdx] at hcon ⊢
        omega
      have h2 := sVal_ge_of_normal fmt q hq h1
      have h3 : (1:ℚ) ≤ (2:ℚ) ^ ((fmt.prec:ℤ) - 1) := one_le_zpow₀ (by norm_num) (by omega)
      linarith
    rw [← hqs, hEmin]
    calc sVal fmt q * (2:ℚ) ^ fmt.emin ≤ (1/2) * (2:ℚ) ^ fmt.emin := by
          apply mul_le_mul_of_nonneg_right hshalf (by positivity)
    _ = (2:ℚ) ^ (fmt.emin - 1) := by
          rw [show fmt.emin - 1 = fmt.emin + (-1) by ring,
            zpow_add₀ (by norm_num : (2:ℚ) ≠ 0), zpow_neg_one]
          ring
  · intro h
    have hL : ratLog2 q ≤ fmt.emin - 1 := by
      by_contra hcon
      push_neg at hcon
      have h1 : (2:ℚ) ^ (ratLog2 q) ≤ q := (ratLog2_spec q hq).1
      have h2 : (2:ℚ) ^ (fmt.emin) ≤ (2:ℚ) ^ (ratLog2 q) := by
        apply zpow_le_of_le (by norm_num : (1:ℚ) ≤ 2)
        omega
      have h3 : (2:ℚ) ^ (fmt.emin - 1) < (2:ℚ) ^ (fmt.emin) := by
        apply zpow_lt_zpow_right₀ (by norm_num : (1:ℚ) < 2)
        omega
      linarith
    have hE : eIdx fmt q = fmt.emin := by
      rw [eIdx]
      omega
    have hshalf : sVal fmt q ≤ 1/2 := by
      rw [sVal, hE]
      have h5 : (0:ℚ) < (2:ℚ) ^ (-fmt.emin) := by positivity
      calc q * (2:ℚ) ^ (-fmt.emin) ≤ (2:ℚ) ^ (fmt.emin - 1) * (2:ℚ) ^ (-fmt.emin) :=
            mul_le_mul_of_nonneg_right h (le_of_lt h5)
      _ = (2:ℚ) ^ (-1 : ℤ) := by
            rw [← zpow_add₀ (by norm_num : (2:ℚ) ≠ 0)]
            congr 1
            ring
      _ = 1/2 := by norm_num
    have hfl : ⌊sVal fmt q⌋ = 0 := by
      rw [Int.floor_eq_iff]
      constructor
      · push_cast
        linarith
      · push_cast
        linarith
    have hrnd : rndN (sVal fmt q) = 0 := by
      rw [rndN_eq (sVal fmt q) (le_of_lt hs0), hfl]
      by_cases hhalf : sVal fmt q - ((0:ℤ):ℚ) < 1/2
      · rw [if_pos hhalf]
        rfl
      · rw [if_neg hhalf]
        have hno : ¬ (1/2 < sVal fmt q - ((0:ℤ):ℚ)) := by
          push_cast
          push_neg
          push_cast at hshalf ⊢
          linarith
        rw [if_neg hno]
        rfl
    rw [roundPos_pos_eq fmt q hq, if_neg (by omega : ¬ fmt.emax < eIdx fmt q), hrnd]
    rw [if_neg (by have := Nat.one_le_two_pow (n := fmt.prec); omega), hE]

theorem canonical_val_inj_ordered (fmt : FloatFmt) (hw : fmt.wf)
    (M : ℕ) (E : ℤ) (M' : ℕ) (E' : ℤ)
    (hM : M < 2 ^ fmt.prec) (hE : fmt.emin ≤ E)
    (hM' : M' < 2 ^ fmt.prec) (hE' : fmt.emin ≤ E')
    (hcan' : fmt.canonical M' E')
    (hpos : 0 < M)
    (hle : E ≤ E')
    (hv : (M:ℚ) * (2:ℚ) ^ E = (M':ℚ) * (2:ℚ) ^ E') :
    M = M' ∧ E = E' := by
  have hd : (((E' - E).toNat : ℕ) : ℤ) = E' - E := Int.toNat_of_nonneg (by omega)
  have hsplit : (M':ℚ) * (2:ℚ) ^ E' = ((M' * 2 ^ ((E' - E).toNat) : ℕ) : ℚ) * (2:ℚ) ^ E := by
    push_cast
    rw [mul_assoc]
    congr 1
    rw [← zpow_natCast (2:ℚ) ((E' - E).toNat), ← zpow_add₀ (by norm_num : (2:ℚ) ≠ 0)]
    congr 1
    omega
  rw [hsplit] at hv
  have hpow : (0:ℚ) < (2:ℚ) ^ E := by positivity
  have hMM : (M:ℚ) = ((M' * 2 ^ ((E' - E).toNat) : ℕ) : ℚ) :=
    mul_right_cancel₀ (ne_of_gt hpow) hv
  have hMN : M = M' * 2 ^ ((E' - E).toNat) := by exact_mod_cast hMM
  by_cases hzero : (E' - E).toNat = 0
  · have : E = E' := by omega
    constructor
    · rw [hMN, hzero]
      simp
    · exact this
  · exfalso
    -- E' strictly above E, hence above emin: M' is normalized, M overflows
    have hE'min : fmt.emin < E' := by omega
    have hM'n : 2 ^ (fmt.prec - 1) ≤ M' := by
      rcases hcan' with h | h
      · exact h
      · omega
    have hbig : 2 ^ fmt.prec ≤ M' * 2 ^ ((E' - E).toNat) := by
      have h1 : 2 ^ (fmt.prec - 1) * 2 ≤ M' * 2 ^ ((E' - E).toNat) := by
        apply Nat.mul_le_mul hM'n
        calc (2:ℕ) = 2 ^ 1 := by norm_num
        _ ≤ 2 ^ ((E' - E).toNat) := Nat.pow_le_pow_right (by norm_num) (by omega)
      have h2 : 2 ^ (fmt.prec - 1) * 2 = 2 ^ fmt.prec := by
        rw [← Nat.pow_succ]
        congr 1
        have := hw.1
        omega
      omega
    omega

theorem canonical_val_inj (fmt : FloatFmt) (hw : fmt.wf)
    (M : ℕ) (E : ℤ) (M' : ℕ) (E' : ℤ)
    (hM : M < 2 ^ fmt.prec) (hE : fmt.emin ≤ E)
    (hM' : M' < 2 ^ fmt.prec) (hE' : fmt.emin ≤ E')
    (hcan : fmt.canonical M E) (hcan' : fmt.canonical M' E')
    (hpos : 0 < M) (hpos' : 0 < M')
    (hv : (M:ℚ) * (2:ℚ) ^ E = (M':ℚ) * (2:ℚ) ^ E') :
    M = M' ∧ E = E' := by
  rcases le_total E E' with h | h
  · exact canonical_val_inj_ordered fmt hw M E M' E' hM hE hM' hE' hcan' hpos h hv
  · obtain ⟨h1, h2⟩ := canonical_val_inj_ordered fmt hw M' E' M E hM' hE' hM hE hcan hpos' h hv.symm
    exact ⟨h1.symm, h2.symm⟩

/-- Stability interval: every positive rational within a quarter-ulp of a
positive canonical representable value rounds exactly to it. -/
theorem roundPos_of_close (fmt : FloatFmt) (hw : fmt.wf)
    (M0 : ℕ) (E0 : ℤ)
    (hM0 : M0 < 2 ^ fmt.prec) (hE0 : fmt.emin ≤ E0) (hE0x : E0 ≤ fmt.emax)
    (hpos : 0 < M0) (hcan : fmt.canonical M0 E0)
    (y : ℚ) (hy : 0 < y)
    (hclose : |y - (M0:ℚ) * (2:ℚ) ^ E0| < (2:ℚ) ^ (E0 - 2)) :
    roundPos fmt y = .finite M0 E0 := by
  obtain ⟨hp, hee⟩ := hw
  have hx0 : (0:ℚ) < (M0:ℚ) * (2:ℚ) ^ E0 := by positivity
  -- no overflow: y is below the overflow threshold
  have hymax : y < fmt.overflowBound := by
    have h1 : (M0:ℚ) ≤ (2:ℚ) ^ ((fmt.prec:ℤ)) - 1 := by
      have h2 : ((M0 + 1 : ℕ) : ℚ) ≤ ((2 ^ fmt.prec : ℕ) : ℚ) := by exact_mod_cast hM0
      rw [natCast_two_pow] at h2
      push_cast at h2
      linarith
    have h2 : (M0:ℚ) * (2:ℚ) ^ E0 ≤ ((2:ℚ) ^ ((fmt.prec:ℤ)) - 1) * (2:ℚ) ^ fmt.emax := by
      have h3 : (M0:ℚ) * (2:ℚ) ^ E0 ≤ (M0:ℚ) * (2:ℚ) ^ fmt.emax := by
        apply mul_le_mul_of_nonneg_left _ (by positivity)
        apply zpow_le_of_le (by norm_num : (1:ℚ) ≤ 2) hE0x
      have h4 : (M0:ℚ) * (2:ℚ) ^ fmt.emax ≤ ((2:ℚ) ^ ((fmt.prec:ℤ)) - 1) * (2:ℚ) ^ fmt.emax := by
        apply mul_le_mul_of_nonneg_right _ (by positivity)
        linarith
      linarith
    have h5 : (2:ℚ) ^ (E0 - 2) ≤ (2:ℚ) ^ (fmt.emax - 2) :=
      zpow_le_of_le (by norm_num : (1:ℚ) ≤ 2) (by omega)
    have h6 : (2:ℚ) ^ (fmt.emax - 2) < (1/2) * (2:ℚ) ^ fmt.emax := by
      have h7 : (2:ℚ) ^ (fmt.emax - 2) = (1/4) * (2:ℚ) ^ fmt.emax := by
        rw [show fmt.emax - 2 = -2 + fmt.emax by ring, zpow_add₀ (by norm_num : (2:ℚ) ≠ 0)]
        norm_num
      have h8 : (0:ℚ) < (2:ℚ) ^ fmt.emax := by positivity
      rw [h7]
      linarith
    have h9 : y < (M0:ℚ) * (2:ℚ) ^ E0 + (2:ℚ) ^ (E0 - 2) := by
      rcases abs_lt.mp hclose with ⟨_, hr⟩
      linarith
    have hofb : fmt.overflowBound = ((2:ℚ) ^ ((fmt.prec:ℤ)) - 1/2) * (2:ℚ) ^ fmt.emax := by
      rw [FloatFmt.overflowBound]
      congr 2
      rw [← zpow_natCast (2:ℚ) fmt.prec]
    rw [hofb]
    have h10 : (0:ℚ) < (2:ℚ) ^ fmt.emax := by positivity
    nlinarith
  -- hence the result is finite
  cases hr : roundPos fmt y with
  | inf =>
    rw [roundPos_inf_iff fmt ⟨hp, hee⟩ y hy] at hr
    linarith
  | finite M E =>
    obtain ⟨hval, hMlt, hEmin, hcanME, hEmax, _⟩ :=
      roundPos_finite_anatomy fmt ⟨hp, hee⟩ y hy M E hr
    have hnear := roundPos_nearest fmt ⟨hp, hee⟩ y hy M E hr M0 E0 hM0 hE0
    have hdist : |(M:ℚ) * (2:ℚ) ^ E - (M0:ℚ) * (2:ℚ) ^ E0| < (2:ℚ) ^ (E0 - 1) := by
      have h1 : |(M:ℚ) * (2:ℚ) ^ E - (M0:ℚ) * (2:ℚ) ^ E0|
          ≤ |(M:ℚ) * (2:ℚ) ^ E - y| + |y - (M0:ℚ) * (2:ℚ) ^ E0| := abs_sub_le _ _ _
      have h2 : |(M:ℚ) * (2:ℚ) ^ E - y| ≤ |(M0:ℚ) * (2:ℚ) ^ E0 - y| := hnear
      have h3 : |(M0:ℚ) * (2:ℚ) ^ E0 - y| = |y - (M0:ℚ) * (2:ℚ) ^ E0| := abs_sub_comm _ _
      have h4 : (2:ℚ) ^ (E0 - 2) + (2:ℚ) ^ (E0 - 2) = (2:ℚ) ^ (E0 - 1) := by
        rw [show E0 - 1 = (E0 - 2) + 1 by ring, zpow_add_one₀ (by norm_num : (2:ℚ) ≠ 0)]
        ring
      linarith
    -- separation of representable values around the canonical target
    have heqv : (M:ℚ) * (2:ℚ) ^ E = (M0:ℚ) * (2:ℚ) ^ E0 := by
      by_contra hne
      rcases lt_or_le E (E0 - 1) with hcase | hcase
      · -- far below the target's binade: distance at least half the target
        have hE0min : fmt.emin < E0 := by omega
        have hM0n : 2 ^ (fmt.prec - 1) ≤ M0 := by
          rcases hcan with h | h
          · exact h
          · omega
        have hxlb : (2:ℚ) ^ ((fmt.prec:ℤ) - 1 + E0) ≤ (M0:ℚ) * (2:ℚ) ^ E0 := by
          rw [zpow_add₀ (by norm_num : (2:ℚ) ≠ 0)]
          apply mul_le_mul_of_nonneg_right _ (by positivity)
          have h1 : ((2 ^ (fmt.prec - 1) : ℕ) : ℚ) ≤ (M0:ℚ) := by exact_mod_cast hM0n
          calc (2:ℚ) ^ ((fmt.prec:ℤ) - 1) = ((2 ^ (fmt.prec - 1) : ℕ) : ℚ) := by
                rw [natCast_two_pow]
                congr 1
                omega
          _ ≤ (M0:ℚ) := h1
        have hvub : (M:ℚ) * (2:ℚ) ^ E < (2:ℚ) ^ ((fmt.prec:ℤ) + E) := by
          rw [zpow_add₀ (by norm_num : (2:ℚ) ≠ 0)]
          apply mul_lt_mul_of_pos_right _ (by positivity)
          have h1 : ((M : ℕ) : ℚ) < ((2 ^ fmt.prec : ℕ) : ℚ) := by exact_mod_cast hMlt
          rw [natCast_two_pow] at h1
          exact h1
        have hhalf : (2:ℚ) ^ ((fmt.prec:ℤ) + E) ≤ (2:ℚ) ^ ((fmt.prec:ℤ) - 2 + E0) :=
          zpow_le_of_le (by norm_num : (1:ℚ) ≤ 2) (by omega)
        have hq1 : (2:ℚ) ^ ((fmt.prec:ℤ) - 2 + E0) + (2:ℚ) ^ ((fmt.prec:ℤ) - 2 + E0)
            = (2:ℚ) ^ ((fmt.prec:ℤ) - 1 + E0) := by
          rw [show (fmt.prec:ℤ) - 1 + E0 = ((fmt.prec:ℤ) - 2 + E0) + 1 by ring,
            zpow_add_one₀ (by norm_num : (2:ℚ) ≠ 0)]
          ring
        have hsep : (2:ℚ) ^ ((fmt.prec:ℤ) - 2 + E0) ≤ (M0:ℚ) * (2:ℚ) ^ E0 - (M:ℚ) * (2:ℚ) ^ E := by
          linarith
        have hgap : (2:ℚ) ^ (E0 - 1) ≤ (2:ℚ) ^ ((fmt.prec:ℤ) - 2 + E0) :=
          zpow_le_of_le (by norm_num : (1:ℚ) ≤ 2) (by omega)
        have habs : (2:ℚ) ^ (E0 - 1) ≤ |(M:ℚ) * (2:ℚ) ^ E - (M0:ℚ) * (2:ℚ) ^ E0| := by
          rw [abs_sub_comm]
          calc (2:ℚ) ^ (E0 - 1) ≤ (2:ℚ) ^ ((fmt.prec:ℤ) - 2 + E0) := hgap
          _ ≤ (M0:ℚ) * (2:ℚ) ^ E0 - (M:ℚ) * (2:ℚ) ^ E := hsep
          _ ≤ |(M0:ℚ) * (2:ℚ) ^ E0 - (M:ℚ) * (2:ℚ) ^ E| := le_abs_self _
        linarith
      · -- both values are multiples of 2 ^ (E0 - 1): distinct means far apart
        have hd1 : (((E - (E0 - 1)).toNat : ℕ) : ℤ) = E - (E0 - 1) := Int.toNat_of_nonneg (by omega)
        have hv2 : (M:ℚ) * (2:ℚ) ^ E
            = ((M * 2 ^ ((E - (E0 - 1)).toNat) : ℕ) : ℚ) * (2:ℚ) ^ (E0 - 1) := by
          push_cast
          rw [mul_assoc]
          congr 1
          rw [← zpow_natCast (2:ℚ) ((E - (E0 - 1)).toNat), ← zpow_add₀ (by norm_num : (2:ℚ) ≠ 0)]
          congr 1
          omega
        have hx2 : (M0:ℚ) * (2:ℚ) ^ E0 = ((2 * M0 : ℕ) : ℚ) * (2:ℚ) ^ (E0 - 1) := by
          push_cast
          rw [show (2:ℚ) ^ E0 = (2:ℚ) ^ (E0 - 1) * 2 by
            rw [← zpow_add_one₀ (by norm_num : (2:ℚ) ≠ 0)]
            congr 1
            ring]
          ring
        have hAB : (M * 2 ^ ((E - (E0 - 1)).toNat) : ℕ) ≠ (2 * M0 : ℕ) := by
          intro hcontra
          apply hne
          rw [hv2, hx2, hcontra]
        have habs1 : (1:ℚ) ≤ |((M * 2 ^ ((E - (E0 - 1)).toNat) : ℕ) : ℚ) - ((2 * M0 : ℕ) : ℚ)| := by
          have h1 : ((M * 2 ^ ((E - (E0 - 1)).toNat) : ℕ) : ℤ) ≠ ((2 * M0 : ℕ) : ℤ) := by
            exact_mod_cast hAB
          have h2 : 1 ≤ |((M * 2 ^ ((E - (E0 - 1)).toNat) : ℕ) : ℤ) - ((2 * M0 : ℕ) : ℤ)| :=
            Int.one_le_abs (sub_ne_zero.mpr h1)
          have h3 : ((1:ℤ):ℚ) ≤ ((|((M * 2 ^ ((E - (E0 - 1)).toNat) : ℕ) : ℤ) - ((2 * M0 : ℕ) : ℤ)| : ℤ) : ℚ) := by
            exact_mod_cast h2
          rw [Int.cast_abs] at h3
          push_cast at h3 ⊢
          linarith [h3]
        have hpow1 : (0:ℚ) < (2:ℚ) ^ (E0 - 1) := by positivity
        have habs2 : (2:ℚ) ^ (E0 - 1) ≤ |(M:ℚ) * (2:ℚ) ^ E - (M0:ℚ) * (2:ℚ) ^ E0| := by
          rw [hv2, hx2, ← sub_mul, abs_mul, abs_of_pos hpow1]
          calc (2:ℚ) ^ (E0 - 1) = 1 * (2:ℚ) ^ (E0 - 1) := by ring
          _ ≤ |((M * 2 ^ ((E - (E0 - 1)).toNat) : ℕ) : ℚ) - ((2 * M0 : ℕ) : ℚ)| * (2:ℚ) ^ (E0 - 1) :=
                mul_le_mul_of_nonneg_right habs1 (le_of_lt hpow1)
        linarith
    -- value equality plus canonicity forces representation equality
    have hMpos : 0 < M := by
      by_contra hcon
      push_neg at hcon
      have hM0z : M = 0 := by omega
      rw [hM0z] at heqv
      push_cast at heqv
      have : (0:ℚ) < (M0:ℚ) * (2:ℚ) ^ E0 := by positivity
      rw [← heqv] at this
      simp at this
    obtain ⟨h1, h2⟩ := canonical_val_inj fmt ⟨hp, hee⟩ M E M0 E0 hMlt hEmin hM0 hE0
      hcanME hcan hMpos hpos heqv
    rw [h1, h2]

/-! ### Digit strings -/

/-- Little-endian digits of `n` in base `r`, with explicit fuel. -/
def digitsLE : ℕ → ℕ → ℕ → List ℕ
  | 0, _, _ => []
  | fuel + 1, r, n => if n = 0 then [] else n % r :: digitsLE fuel r (n / r)

/-- Big-endian digit list of `n` in base `r`; zero is written as the
single digit `0`, mirroring the integer writer's behavior. -/
def toDigits (r n : ℕ) : List ℕ :=
  if n = 0 then [0] else (digitsLE n r n).reverse

/-- Value of a big-endian digit list in base `r`. -/
def fromDigits (r : ℕ) : List ℕ → ℕ
  | [] => 0
  | d :: ds => d * r ^ ds.length + fromDigits r ds

/-- Value of a little-endian digit list in base `r`. -/
def fromDigitsLE (r : ℕ) : List ℕ → ℕ
  | [] => 0
  | d :: ds => d + r * fromDigitsLE r ds

theorem fromDigits_append (r : ℕ) (a b : List ℕ) :
    fromDigits r (a ++ b) = fromDigits r a * r ^ b.length + fromDigits r b := by
  induction a with
  | nil => simp [fromDigits]
  | cons d ds ih =>
    simp only [List.cons_append, fromDigits, ih, List.length_append, List.append_eq]
    ring

theorem fromDigits_reverse (r : ℕ) (l : List ℕ) :
    fromDigits r l.reverse = fromDigitsLE r l := by
  induction l with
  | nil => rfl
  | cons d ds ih =>
    rw [List.reverse_cons, fromDigits_append, ih]
    simp [fromDigits, fromDigitsLE]
    ring

theorem fromDigitsLE_digitsLE (r : ℕ) (hr : 2 ≤ r) (fuel n : ℕ) (h : n < 2 ^ fuel) :
    fromDigitsLE r (digitsLE fuel r n) = n := by
  induction fuel generalizing n with
  | zero =>
    interval_cases n
    rfl
  | succ k ih =>
    rw [digitsLE]
    by_cases hz : n = 0
    · rw [if_pos hz, hz]
      rfl
    · have hrec : n / r < 2 ^ k := by
        have h1 : n / r ≤ n / 2 := Nat.div_le_div_left hr (by norm_num)
        have h2 : n / 2 < 2 ^ k := by
          have h4 : n / 2 < 2 ^ (k + 1) / 2 := by
            apply Nat.div_lt_div_of_lt_of_dvd ⟨2 ^ k, by ring⟩ h
          simpa [Nat.pow_succ, Nat.mul_div_cancel] using h4
        omega
      rw [if_neg hz, fromDigitsLE, ih (n / r) hrec]
      exact Nat.mod_add_div n r

theorem fromDigits_toDigits (r : ℕ) (hr : 2 ≤ r) (n : ℕ) :
    fromDigits r (toDigits r n) = n := by
  rw [toDigits]
  by_cases hz : n = 0
  · rw [if_pos hz, hz]
    rfl
  · rw [if_neg hz, fromDigits_reverse]
    exact fromDigitsLE_digitsLE r hr n n (Nat.lt_two_pow n)

theorem digitsLE_lt (r : ℕ) (hr : 2 ≤ r) (fuel n : ℕ) :
    ∀ d ∈ digitsLE fuel r n, d < r := by
  induction fuel generalizing n with
  | zero =>
    intro d hd
    simp [digitsLE] at hd
  | succ k ih =>
    intro d hd
    rw [digitsLE] at hd
    by_cases hz : n = 0
    · rw [if_pos hz] at hd
      simp at hd
    · rw [if_neg hz] at hd
      rcases List.mem_cons.mp hd with h | h
      · rw [h]
        exact Nat.mod_lt n (by omega)
      · exact ih (n / r) d h

theorem toDigits_lt (r : ℕ) (hr : 2 ≤ r) (n : ℕ) :
    ∀ d ∈ toDigits r n, d < r := by
  intro d hd
  rw [toDigits] at hd
  by_cases hz : n = 0
  · rw [if_pos hz] at hd
    simp at hd
    omega
  · rw [if_neg hz] at hd
    exact digitsLE_lt r hr n n d (List.mem_reverse.mp hd)

theorem digitsLE_length (r : ℕ) (hr : 2 ≤ r) (fuel n k : ℕ) (h : n < r ^ k) :
    (digitsLE fuel r n).length ≤ k := by
  induction fuel generalizing n k with
  | zero => simp [digitsLE]
  | succ f ih =>
    rw [digitsLE]
    by_cases hz : n = 0
    · simp [if_pos hz]
    · rw [if_neg hz]
      have hk1 : 1 ≤ k := by
        by_contra hcon
        push_neg at hcon
        interval_cases k
        simp at h
        omega
      simp only [List.length_cons]
      have h2 : n / r < r ^ (k - 1) := by
        rw [Nat.div_lt_iff_lt_mul (by omega : 0 < r)]
        have hpow : r ^ (k - 1) * r = r ^ k := by
          rw [← Nat.pow_succ]
          congr 1
          omega
        omega
      have := ih (n / r) (k - 1) h2
      omega

theorem toDigits_length (r : ℕ) (hr : 2 ≤ r) (n k : ℕ) (h : n < r ^ k) (hk : 1 ≤ k) :
    (toDigits r n).length ≤ k := by
  rw [toDigits]
  by_cases hz : n = 0
  · rw [if_pos hz]
    simpa using hk
  · rw [if_neg hz, List.length_reverse]
    exact digitsLE_length r hr n n k h

theorem fromDigits_dropLast (r : ℕ) (hr : 2 ≤ r) (n : ℕ) :
    fromDigits r ((toDigits r n).dropLast) = n / r := by
  rw [toDigits]
  by_cases hz : n = 0
  · rw [if_pos hz, hz]
    simp [fromDigits]
  · rw [if_neg hz]
    have hle : digitsLE n r n = n % r :: digitsLE (n - 1) r (n / r) := by
      obtain ⟨m, rfl⟩ : ∃ m, n = m + 1 := ⟨n - 1, by omega⟩
      rw [digitsLE, if_neg hz]
      congr 1
    rw [hle]
    rw [List.reverse_cons, List.dropLast_concat, fromDigits_reverse]
    apply fromDigitsLE_digitsLE r hr
    have h1 : n / r < n := Nat.div_lt_self (by omega) (by omega)
    have h2 : n - 1 < 2 ^ (n - 1) := Nat.lt_two_pow (n - 1)
    omega

/-! ### Shortest round-trip formatter (modelled from spec section 4.5) -/

/-- Lower end of the scale search window. -/
def nLow : ℤ := -1100

/-- Search window size; covers the whole finite range of binary32 and
binary64 at every radix in `[2, 36]`. -/
def fmtFuel : ℕ := 2400

/-- Exact rational value of the float `(M0, E0)`, computably. -/
def fVal (M0 : ℕ) (E0 : ℤ) : ℚ := qmul ((M0 : ℕ) : ℚ) (pow2Q E0)

theorem fVal_eq (M0 : ℕ) (E0 : ℤ) : fVal M0 E0 = (M0 : ℚ) * (2:ℚ) ^ E0 := by
  rw [fVal, qmul_eq, pow2Q_eq]

/-- Truncation of the exact value scaled by `r ^ (nLow + j)`. -/
def fmtBase (r : ℕ) (M0 : ℕ) (E0 : ℤ) (j : ℕ) : ℕ :=
  let z := qmul (fVal M0 E0) (powQ r (nLow + j))
  z.num.toNat / z.den

/-- Does the truncated candidate at scale `j` parse back to the input? -/
def fmtOkFloor (fmt : FloatFmt) (r : ℕ) (M0 : ℕ) (E0 : ℤ) (j : ℕ) : Bool :=
  decide (roundPos fmt
    (qmul ((fmtBase r M0 E0 j : ℕ) : ℚ) (powQ r (-(nLow + j)))) = FltR.finite M0 E0)

/-- Does the incremented candidate at scale `j` parse back to the input? -/
def fmtOkCeil (fmt : FloatFmt) (r : ℕ) (M0 : ℕ) (E0 : ℤ) (j : ℕ) : Bool :=
  decide (roundPos fmt
    (qmul (((fmtBase r M0 E0 j + 1 : ℕ)) : ℚ) (powQ r (-(nLow + j)))) = FltR.finite M0 E0)

/-- A scale succeeds when either candidate parses back to the input. -/
def fmtOkF (fmt : FloatFmt) (r : ℕ) (M0 : ℕ) (E0 : ℤ) (j : ℕ) : Bool :=
  fmtOkFloor fmt r M0 E0 j || fmtOkCeil fmt r M0 E0 j

/-- First index at which the predicate holds, searched with fuel. -/
def findFirst (p : ℕ → Bool) : ℕ → ℕ → Option ℕ
  | _, 0 => none
  | start, fuel + 1 => if p start then some start else findFirst p (start + 1) fuel

/-- Core shortest formatter: the least scale at which one of the two
candidates re-parses to the input, together with that candidate. Output
is `(significand, exponent)` with value `significand * r ^ exponent`
(spec section 4.5, radix fallback: emit digits until the shortest
round-trip is achieved, testable by re-parsing each candidate). -/
def fmtCore (fmt : FloatFmt) (r : ℕ) (M0 : ℕ) (E0 : ℤ) : ℕ × ℤ :=
  match findFirst (fmtOkF fmt r M0 E0) 0 fmtFuel with
  | some j =>
      if fmtOkFloor fmt r M0 E0 j then (fmtBase r M0 E0 j, -(nLow + j))
      else (fmtBase r M0 E0 j + 1, -(nLow + j))
  | none => (0, 0)

/-- Digit-string output of the formatter: big-endian digits plus the
scientific exponent. -/
def fmtDigits (fmt : FloatFmt) (r : ℕ) (M0 : ℕ) (E0 : ℤ) : List ℕ × ℤ :=
  (toDigits r (fmtCore fmt r M0 E0).1, (fmtCore fmt r M0 E0).2)

/-- Parse a digit string with scientific exponent at radix `r`: evaluate
it exactly and round (the core parser contract of spec section 6). -/
def parseDigits (fmt : FloatFmt) (r : ℕ) (ds : List ℕ) (x : ℤ) : FltR :=
  roundPos fmt (qmul ((fromDigits r ds : ℕ) : ℚ) (powQ r x))

theorem findFirst_eq_some (p : ℕ → Bool) (s fuel j : ℕ)
    (h : findFirst p s fuel = some j) :
    p j = true ∧ s ≤ j ∧ (∀ i, s ≤ i → i < j → p i = false) := by
  induction fuel generalizing s with
  | zero => exact absurd h (by simp [findFirst])
  | succ f ih =>
    rw [findFirst] at h
    by_cases hp : p s
    · rw [if_pos hp] at h
      have hj : j = s := by
        cases h
        rfl
      rw [hj]
      exact ⟨hp, le_refl s, fun i h1 h2 => absurd (lt_of_le_of_lt h1 h2) (lt_irrefl s)⟩
    · rw [if_neg hp] at h
      obtain ⟨h1, h2, h3⟩ := ih (s + 1) h
      refine ⟨h1, by omega, fun i hi1 hi2 => ?_⟩
      rcases eq_or_lt_of_le hi1 with h4 | h4
      · rw [← h4]
        exact Bool.of_not_eq_true hp
      · exact h3 i (by omega) hi2

theorem findFirst_isSome (p : ℕ → Bool) (s fuel j : ℕ)
    (hj : s ≤ j) (hjf : j < s + fuel) (hp : p j = true) :
    ∃ j', findFirst p s fuel = some j' := by
  induction fuel generalizing s with
  | zero => omega
  | succ f ih =>
    rw [findFirst]
    by_cases hps : p s
    · exact ⟨s, if_pos hps⟩
    · rw [if_neg hps]
      apply ih (s + 1) ?_ ?_
      · rcases eq_or_lt_of_le hj with h | h
        · rw [← h] at hp
          exact absurd hp (by simpa using hps)
        · omega
      · omega

theorem fmtBase_cast (r : ℕ) (hr : 2 ≤ r) (M0 : ℕ) (E0 : ℤ) (j : ℕ) :
    ((fmtBase r M0 E0 j : ℕ) : ℤ) = ⌊(M0 : ℚ) * (2:ℚ) ^ E0 * ((r:ℕ) : ℚ) ^ ((nLow + j : ℤ))⌋ := by
  rw [fmtBase]
  have hz : qmul (fVal M0 E0) (powQ r (nLow + j))
      = (M0 : ℚ) * (2:ℚ) ^ E0 * ((r:ℕ) : ℚ) ^ ((nLow + j : ℤ)) := by
    rw [qmul_eq, fVal_eq, powQ_eq r (by omega)]
  rw [hz] at *
  exact floorN_eq _ (by positivity)

/-- Whenever the scale is precise enough (`r ^ n` at least `2 ^ (2 - E0)`),
the truncated candidate already re-parses to the input. -/
theorem fmtOkFloor_of_precise (fmt : FloatFmt) (hw : fmt.wf) (r : ℕ) (hr : 2 ≤ r)
    (M0 : ℕ) (E0 : ℤ)
    (hM0 : M0 < 2 ^ fmt.prec) (hE0 : fmt.emin ≤ E0) (hE0x : E0 ≤ fmt.emax)
    (hpos : 0 < M0) (hcan : fmt.canonical M0 E0) (j : ℕ)
    (hn : (2:ℚ) ^ ((2 : ℤ) - E0) ≤ ((r:ℕ) : ℚ) ^ ((nLow + j : ℤ))) :
    fmtOkFloor fmt r M0 E0 j = true := by
  have hq0 : (0:ℚ) < (M0 : ℚ) * (2:ℚ) ^ E0 := by positivity
  have hrq : (0:ℚ) < ((r:ℕ) : ℚ) := by
    have : (0:ℕ) < r := by omega
    exact_mod_cast this
  have hpn : (0:ℚ) < ((r:ℕ) : ℚ) ^ ((nLow + j : ℤ)) := by positivity
  have hM1 : (1:ℚ) ≤ (M0 : ℚ) := by exact_mod_cast hpos
  set z : ℚ := (M0 : ℚ) * (2:ℚ) ^ E0 * ((r:ℕ) : ℚ) ^ ((nLow + j : ℤ)) with hzdef
  have hz0 : (0:ℚ) < z := by positivity
  have hz4 : (4:ℚ) ≤ z := by
    have h1 : (2:ℚ) ^ E0 * (2:ℚ) ^ ((2:ℤ) - E0) = 4 := by
      rw [← zpow_add₀ (by norm_num : (2:ℚ) ≠ 0)]
      norm_num
    calc (4:ℚ) = 1 * ((2:ℚ) ^ E0 * (2:ℚ) ^ ((2:ℤ) - E0)) := by rw [h1]; ring
    _ ≤ (M0 : ℚ) * ((2:ℚ) ^ E0 * ((r:ℕ) : ℚ) ^ ((nLow + j : ℤ))) := by
        have h2 : (2:ℚ) ^ E0 * (2:ℚ) ^ ((2:ℤ) - E0) ≤ (2:ℚ) ^ E0 * ((r:ℕ) : ℚ) ^ ((nLow + j : ℤ)) :=
          mul_le_mul_of_nonneg_left hn (by positivity)
        have h3 : (0:ℚ) ≤ (2:ℚ) ^ E0 * (2:ℚ) ^ ((2:ℤ) - E0) := by positivity
        nlinarith
    _ = z := by rw [hzdef]; ring
  have hD : ((fmtBase r M0 E0 j : ℕ) : ℤ) = ⌊z⌋ := fmtBase_cast r hr M0 E0 j
  have hD1 : (1:ℕ) ≤ fmtBase r M0 E0 j := by
    have h1 : (1:ℤ) ≤ ⌊z⌋ := by
      rw [Int.le_floor]
      push_cast
      linarith
    omega
  -- the floor candidate value
  have hfl1 : ((fmtBase r M0 E0 j : ℕ) : ℚ) ≤ z := by
    have := Int.floor_le z
    rw [← hD] at this
    exact_mod_cast this
  have hfl2 : z - 1 < ((fmtBase r M0 E0 j : ℕ) : ℚ) := by
    have := Int.sub_one_lt_floor z
    rw [← hD] at this
    exact_mod_cast this
  have hinv : ((r:ℕ) : ℚ) ^ (-(nLow + j : ℤ)) ≤ (2:ℚ) ^ (E0 - 2) := by
    have h1 : ((r:ℕ) : ℚ) ^ (-(nLow + j : ℤ)) = (((r:ℕ) : ℚ) ^ ((nLow + j : ℤ)))⁻¹ := by
      rw [zpow_neg]
    have h2 : ((2:ℚ) ^ ((2:ℤ) - E0))⁻¹ = (2:ℚ) ^ (E0 - 2) := by
      rw [← zpow_neg]
      congr 1
      ring
    rw [h1, ← h2]
    exact inv_le_inv_of_le (by positivity) hn
  have hyval : qmul ((fmtBase r M0 E0 j : ℕ) : ℚ) (powQ r (-(nLow + j)))
      = ((fmtBase r M0 E0 j : ℕ) : ℚ) * ((r:ℕ) : ℚ) ^ (-(nLow + j : ℤ)) := by
    rw [qmul_eq, powQ_eq r (by omega)]
  have hqz : (M0 : ℚ) * (2:ℚ) ^ E0 = z * ((r:ℕ) : ℚ) ^ (-(nLow + j : ℤ)) := by
    rw [hzdef, mul_assoc, ← zpow_add₀ (ne_of_gt hrq),
      show (nLow + (j:ℤ)) + -(nLow + (j:ℤ)) = 0 from by ring, zpow_zero, mul_one]
  have hpinv : (0:ℚ) < ((r:ℕ) : ℚ) ^ (-(nLow + j : ℤ)) := by positivity
  have hclose : |((fmtBase r M0 E0 j : ℕ) : ℚ) * ((r:ℕ) : ℚ) ^ (-(nLow + j : ℤ))
      - (M0 : ℚ) * (2:ℚ) ^ E0| < (2:ℚ) ^ (E0 - 2) := by
    rw [hqz, ← sub_mul, abs_mul, abs_of_pos hpinv]
    have h1 : |((fmtBase r M0 E0 j : ℕ) : ℚ) - z| < 1 := by
      rw [abs_sub_comm, abs_of_nonneg (by linarith)]
      linarith
    have h2 : |((fmtBase r M0 E0 j : ℕ) : ℚ) - z| * ((r:ℕ) : ℚ) ^ (-(nLow + j : ℤ))
        < 1 * ((r:ℕ) : ℚ) ^ (-(nLow + j : ℤ)) :=
      mul_lt_mul_of_pos_right h1 hpinv
    calc |((fmtBase r M0 E0 j : ℕ) : ℚ) - z| * ((r:ℕ) : ℚ) ^ (-(nLow + j : ℤ))
        < 1 * ((r:ℕ) : ℚ) ^ (-(nLow + j : ℤ)) := h2
    _ = ((r:ℕ) : ℚ) ^ (-(nLow + j : ℤ)) := by ring
    _ ≤ (2:ℚ) ^ (E0 - 2) := hinv
  have habs : |((fmtBase r M0 E0 j : ℕ) : ℚ) * ((r:ℕ) : ℚ) ^ (-(nLow + j : ℤ))
      - (M0 : ℚ) * (2:ℚ) ^ E0|
      = |((fmtBase r M0 E0 j : ℕ) : ℚ) * ((r:ℕ) : ℚ) ^ (-(nLow + j : ℤ))
      - (M0 : ℚ) * (2:ℚ) ^ E0| := rfl
  have hy0 : (0:ℚ) < ((fmtBase r M0 E0 j : ℕ) : ℚ) * ((r:ℕ) : ℚ) ^ (-(nLow + j : ℤ)) := by
    have h1 : (0:ℚ) < ((fmtBase r M0 E0 j : ℕ) : ℚ) := by
      have : (0:ℕ) < fmtBase r M0 E0 j := hD1
      exact_mod_cast this
    positivity
  have hround := roundPos_of_close fmt hw M0 E0 hM0 hE0 hE0x hpos hcan
    (((fmtBase r M0 E0 j : ℕ) : ℚ) * ((r:ℕ) : ℚ) ^ (-(nLow + j : ℤ))) hy0 hclose
  rw [fmtOkFloor, hyval]
  exact decide_eq_true hround

theorem roundPos_nonpos (fmt : FloatFmt) (q : ℚ) (hq : q ≤ 0) :
    roundPos fmt q = .finite 0 fmt.emin := by
  rw [roundPos, if_pos hq]

/-- Size constraints satisfied by binary32 and binary64: they keep the
whole finite range inside the formatter's search window. -/
def FloatFmt.sized (fmt : FloatFmt) : Prop :=
  (fmt.prec : ℤ) + fmt.emax ≤ 1024 ∧ (-1074 : ℤ) ≤ fmt.emin ∧ fmt.prec ≤ 53

theorem fmt64_sized : fmt64.sized := by
  refine ⟨?_, ?_, ?_⟩ <;> decide

theorem fmt32_sized : fmt32.sized := by
  refine ⟨?_, ?_, ?_⟩ <;> decide

theorem natCast_le_q (a b : ℕ) (h : a ≤ b) : ((a:ℕ):ℚ) ≤ ((b:ℕ):ℚ) := by
  exact_mod_cast h

theorem rpow_ge_two_pow (r : ℕ) (hr : 2 ≤ r) (n : ℤ) (hn : 0 ≤ n) :
    (2:ℚ) ^ n ≤ ((r:ℕ) : ℚ) ^ n := by
  obtain ⟨k, rfl⟩ : ∃ k : ℕ, n = (k : ℤ) := ⟨n.toNat, (Int.toNat_of_nonneg hn).symm⟩
  rw [zpow_natCast, zpow_natCast]
  apply pow_le_pow_left (by norm_num)
  exact_mod_cast hr

theorem q_lt_top (fmt : FloatFmt) (M0 : ℕ) (E0 : ℤ)
    (hM0 : M0 < 2 ^ fmt.prec) (hE0x : E0 ≤ fmt.emax) :
    (M0 : ℚ) * (2:ℚ) ^ E0 < (2:ℚ) ^ ((fmt.prec : ℤ) + fmt.emax) := by
  have h1 : ((M0 : ℕ) : ℚ) < (2:ℚ) ^ ((fmt.prec : ℤ)) := by
    have h2 : ((M0 : ℕ) : ℚ) < ((2 ^ fmt.prec : ℕ) : ℚ) := by exact_mod_cast hM0
    rw [natCast_two_pow] at h2
    exact h2
  have h3 : (2:ℚ) ^ E0 ≤ (2:ℚ) ^ fmt.emax := zpow_le_of_le (by norm_num) hE0x
  have h4 : (0:ℚ) < (2:ℚ) ^ E0 := by positivity
  calc (M0 : ℚ) * (2:ℚ) ^ E0 < (2:ℚ) ^ ((fmt.prec : ℤ)) * (2:ℚ) ^ E0 :=
        mul_lt_mul_of_pos_right h1 h4
  _ ≤ (2:ℚ) ^ ((fmt.prec : ℤ)) * (2:ℚ) ^ fmt.emax := by
        apply mul_le_mul_of_nonneg_left h3 (by positivity)
  _ = (2:ℚ) ^ ((fmt.prec : ℤ) + fmt.emax) := by
        rw [← zpow_add₀ (by norm_num : (2:ℚ) ≠ 0)]

/-- The search never succeeds at the very bottom of the window: the
truncation there is zero and its increment overflows. -/
theorem fmtOkF_zero_false (fmt : FloatFmt) (hw : fmt.wf) (hs : fmt.sized)
    (r : ℕ) (hr : 2 ≤ r) (M0 : ℕ) (E0 : ℤ)
    (hM0 : M0 < 2 ^ fmt.prec) (hE0x : E0 ≤ fmt.emax) (hpos : 0 < M0) :
    fmtOkF fmt r M0 E0 0 = false := by
  obtain ⟨hs1, hs2, hs3⟩ := hs
  have hrq : (0:ℚ) < ((r:ℕ) : ℚ) := by
    have : (0:ℕ) < r := by omega
    exact_mod_cast this
  have hqlt := q_lt_top fmt M0 E0 hM0 hE0x
  have hxsm : (2:ℚ) ^ ((fmt.prec : ℤ) + fmt.emax) ≤ (2:ℚ) ^ (1024 : ℤ) :=
    zpow_le_of_le (by norm_num) hs1
  -- the scaled value at the bottom of the window is below one
  have hzlt : (M0 : ℚ) * (2:ℚ) ^ E0 * ((r:ℕ) : ℚ) ^ ((nLow + (0:ℕ) : ℤ)) < 1 := by
    have h1 : ((r:ℕ) : ℚ) ^ ((nLow + (0:ℕ) : ℤ)) ≤ (2:ℚ) ^ (-1100 : ℤ) := by
      have h2 : (nLow + (0:ℕ) : ℤ) = (-1100 : ℤ) := by
        rw [nLow]
        ring
      rw [h2]
      have h3 : (2:ℚ) ^ (1100 : ℤ) ≤ ((r:ℕ) : ℚ) ^ (1100 : ℤ) :=
        rpow_ge_two_pow r hr 1100 (by norm_num)
      rw [show (-1100 : ℤ) = -(1100 : ℤ) by ring, zpow_neg, zpow_neg]
      exact inv_le_inv_of_le (by positivity) h3
    have h4 : (0:ℚ) < (M0 : ℚ) * (2:ℚ) ^ E0 := by
      have : (0:ℚ) < (M0:ℚ) := by exact_mod_cast hpos
      positivity
    have h5 : (M0 : ℚ) * (2:ℚ) ^ E0 * ((r:ℕ) : ℚ) ^ ((nLow + (0:ℕ) : ℤ))
        ≤ (M0 : ℚ) * (2:ℚ) ^ E0 * (2:ℚ) ^ (-1100 : ℤ) :=
      mul_le_mul_of_nonneg_left h1 (le_of_lt h4)
    have h6 : (M0 : ℚ) * (2:ℚ) ^ E0 * (2:ℚ) ^ (-1100 : ℤ)
        < (2:ℚ) ^ (1024 : ℤ) * (2:ℚ) ^ (-1100 : ℤ) := by
      apply mul_lt_mul_of_pos_right _ (by positivity)
      linarith
    have h7 : (2:ℚ) ^ (1024 : ℤ) * (2:ℚ) ^ (-1100 : ℤ) = (2:ℚ) ^ (-76 : ℤ) := by
      rw [← zpow_add₀ (by norm_num : (2:ℚ) ≠ 0)]
      norm_num
    have h8 : (2:ℚ) ^ (-76 : ℤ) < 1 := by
      have hb : (1:ℚ) < (2:ℚ) ^ (76 : ℤ) := by
        rw [show (76:ℤ) = ((76:ℕ):ℤ) by norm_num, zpow_natCast]
        norm_num
      have hp : (2:ℚ) ^ (-76 : ℤ) * (2:ℚ) ^ (76 : ℤ) = 1 := by
        rw [← zpow_add₀ (by norm_num : (2:ℚ) ≠ 0)]
        norm_num
      have hpx : (0:ℚ) < (2:ℚ) ^ (-76 : ℤ) := by positivity
      nlinarith
    linarith
  have hbase0 : fmtBase r M0 E0 0 = 0 := by
    have h1 := fmtBase_cast r hr M0 E0 0
    have h2 : ⌊(M0 : ℚ) * (2:ℚ) ^ E0 * ((r:ℕ) : ℚ) ^ ((nLow + (0:ℕ) : ℤ))⌋ = 0 := by
      rw [Int.floor_eq_iff]
      constructor
      · push_cast
        have : (0:ℚ) < (M0:ℚ) := by exact_mod_cast hpos
        positivity
      · push_cast
        push_cast at hzlt
        linarith
    omega
  rw [fmtOkF, Bool.or_eq_false_iff]
  constructor
  · rw [fmtOkFloor, hbase0]
    apply decide_eq_false
    intro hcontra
    have h1 : qmul (((0:ℕ)) : ℚ) (powQ r (-(nLow + (0:ℕ)))) = 0 := by
      rw [qmul_eq]
      push_cast
      ring
    rw [h1, roundPos_nonpos fmt 0 (le_refl 0)] at hcontra
    have h2 : (0:ℕ) = M0 := by
      cases hcontra
      rfl
    omega
  · rw [fmtOkCeil, hbase0]
    apply decide_eq_false
    intro hcontra
    have h1 : qmul (((0 + 1:ℕ)) : ℚ) (powQ r (-(nLow + (0:ℕ))))
        = ((r:ℕ) : ℚ) ^ (1100 : ℤ) := by
      rw [qmul_eq, powQ_eq r (by omega)]
      push_cast
      norm_num [nLow]
    rw [h1] at hcontra
    have h2 : roundPos fmt (((r:ℕ) : ℚ) ^ (1100 : ℤ)) = .inf := by
      rw [roundPos_inf_iff fmt hw _ (by positivity)]
      have h3 : fmt.overflowBound ≤ (2:ℚ) ^ ((fmt.prec : ℤ) + fmt.emax) := by
        have hnp : (2:ℚ) ^ fmt.prec = (2:ℚ) ^ ((fmt.prec : ℤ)) := (zpow_natCast (2:ℚ) fmt.prec).symm
        rw [FloatFmt.overflowBound, hnp, zpow_add₀ (by norm_num : (2:ℚ) ≠ 0)]
        have h4 : (0:ℚ) < (2:ℚ) ^ fmt.emax := by positivity
        nlinarith
      have h5 : (2:ℚ) ^ (1024 : ℤ) ≤ (2:ℚ) ^ (1100 : ℤ) := zpow_le_of_le (by norm_num) (by norm_num)
      have h6 : (2:ℚ) ^ (1100 : ℤ) ≤ ((r:ℕ) : ℚ) ^ (1100 : ℤ) :=
        rpow_ge_two_pow r hr 1100 (by norm_num)
      linarith
    rw [h2] at hcontra
    exact absurd hcontra (by simp)

/-- The search window always contains a successful scale. -/
theorem fmtFound (fmt : FloatFmt) (hw : fmt.wf) (hs : fmt.sized)
    (r : ℕ) (hr : 2 ≤ r) (M0 : ℕ) (E0 : ℤ)
    (hM0 : M0 < 2 ^ fmt.prec) (hE0 : fmt.emin ≤ E0) (hE0x : E0 ≤ fmt.emax)
    (hpos : 0 < M0) (hcan : fmt.canonical M0 E0) :
    ∃ j, findFirst (fmtOkF fmt r M0 E0) 0 fmtFuel = some j := by
  obtain ⟨hs1, hs2, hs3⟩ := hs
  set j0 : ℕ := (max 0 (2 - E0) + 1100).toNat with hj0
  have hn0 : (nLow + (j0:ℕ) : ℤ) = max 0 (2 - E0) := by
    rw [nLow, hj0]
    have h1 : (0:ℤ) ≤ max 0 (2 - E0) + 1100 := by
      have := le_max_left (0:ℤ) (2 - E0)
      omega
    rw [Int.toNat_of_nonneg h1]
    ring
  have hok : fmtOkF fmt r M0 E0 j0 = true := by
    rw [fmtOkF]
    have h1 : fmtOkFloor fmt r M0 E0 j0 = true := by
      apply fmtOkFloor_of_precise fmt hw r hr M0 E0 hM0 hE0 hE0x hpos hcan
      rw [hn0]
      have h2 : (2:ℚ) ^ ((2:ℤ) - E0) ≤ (2:ℚ) ^ (max 0 (2 - E0)) := by
        apply zpow_le_of_le (by norm_num)
        exact le_max_right _ _
      have h3 : (2:ℚ) ^ (max 0 (2 - E0)) ≤ ((r:ℕ) : ℚ) ^ (max 0 (2 - E0)) :=
        rpow_ge_two_pow r hr _ (le_max_left _ _)
      linarith
    rw [h1]
    rfl
  apply findFirst_isSome (fmtOkF fmt r M0 E0) 0 fmtFuel j0 (by omega) ?_ hok
  have hE0b : (-1074 : ℤ) ≤ E0 := le_trans hs2 hE0
  have hj0b : (j0 : ℤ) ≤ 2176 := by
    rw [hj0]
    have h1 : max 0 (2 - E0) ≤ 1076 := by
      have h2 : (2 : ℤ) - E0 ≤ 1076 := by omega
      omega
    have h2 : (0:ℤ) ≤ max 0 (2 - E0) + 1100 := by
      have := le_max_left (0:ℤ) (2 - E0)
      omega
    omega
  have : j0 ≤ 2176 := by exact_mod_cast hj0b
  rw [fmtFuel]
  omega

/-- Complete description of a successful formatter run. -/
theorem fmtCore_spec (fmt : FloatFmt) (hw : fmt.wf) (hs : fmt.sized)
    (r : ℕ) (hr : 2 ≤ r) (M0 : ℕ) (E0 : ℤ)
    (hM0 : M0 < 2 ^ fmt.prec) (hE0 : fmt.emin ≤ E0) (hE0x : E0 ≤ fmt.emax)
    (hpos : 0 < M0) (hcan : fmt.canonical M0 E0) :
    ∃ j, findFirst (fmtOkF fmt r M0 E0) 0 fmtFuel = some j ∧ 1 ≤ j ∧ j < fmtFuel ∧
      (fmtCore fmt r M0 E0).2 = -(nLow + j) ∧
      ((fmtCore fmt r M0 E0).1 = fmtBase r M0 E0 j ∨
        (fmtCore fmt r M0 E0).1 = fmtBase r M0 E0 j + 1) ∧
      roundPos fmt (((fmtCore fmt r M0 E0).1 : ℚ) * ((r:ℕ) : ℚ) ^ ((fmtCore fmt r M0 E0).2))
        = .finite M0 E0 ∧
      fmtOkF fmt r M0 E0 (j - 1) = false := by
  obtain ⟨j, hj⟩ := fmtFound fmt hw hs r hr M0 E0 hM0 hE0 hE0x hpos hcan
  obtain ⟨hpj, _, hmin⟩ := findFirst_eq_some _ _ _ _ hj
  have hj1 : 1 ≤ j := by
    by_contra hcon
    push_neg at hcon
    have hz : j = 0 := by omega
    rw [hz] at hpj
    rw [fmtOkF_zero_false fmt hw hs r hr M0 E0 hM0 hE0x hpos] at hpj
    exact Bool.false_ne_true hpj
  have hjf : j < fmtFuel := by
    -- findFirst with fuel f starting at 0 can only return indices below f
    have h1 := findFirst_eq_some _ _ _ _ hj
    by_contra hcon
    push_neg at hcon
    obtain ⟨j0, hj0⟩ := fmtFound fmt hw hs r hr M0 E0 hM0 hE0 hE0x hpos hcan
    -- both calls return the same value
    rw [hj] at hj0
    cases hj0
    -- impossible: a fueled search cannot return an index at or beyond its fuel
    clear h1 hpj hmin
    exfalso
    have hge : ∀ (fuel s : ℕ) (p : ℕ → Bool) (k : ℕ), findFirst p s fuel = some k → k < s + fuel := by
      intro fuel
      induction fuel with
      | zero =>
        intro s p k hk
        exact absurd hk (by simp [findFirst])
      | succ f ih =>
        intro s p k hk
        rw [findFirst] at hk
        by_cases hp : p s
        · rw [if_pos hp] at hk
          cases hk
          omega
        · rw [if_neg hp] at hk
          have := ih (s + 1) p k hk
          omega
    have := hge fmtFuel 0 (fmtOkF fmt r M0 E0) j hj
    omega
  have hcoreeq : fmtCore fmt r M0 E0 =
      (if fmtOkFloor fmt r M0 E0 j then (fmtBase r M0 E0 j, -(nLow + j))
       else (fmtBase r M0 E0 j + 1, -(nLow + j))) := by
    rw [fmtCore, hj]
  refine ⟨j, hj, hj1, hjf, ?_, ?_, ?_, ?_⟩
  · rw [hcoreeq]
    by_cases hfl : fmtOkFloor fmt r M0 E0 j
    · rw [if_pos hfl]
    · rw [if_neg hfl]
  · rw [hcoreeq]
    by_cases hfl : fmtOkFloor fmt r M0 E0 j
    · rw [if_pos hfl]
      left
      rfl
    · rw [if_neg hfl]
      right
      rfl
  · rw [hcoreeq]
    by_cases hfl : fmtOkFloor fmt r M0 E0 j
    · rw [if_pos hfl]
      have h1 := of_decide_eq_true hfl
      rw [qmul_eq, powQ_eq r (by omega)] at h1
      exact h1
    · rw [if_neg hfl]
      have hcl : fmtOkCeil fmt r M0 E0 j = true := by
        rw [fmtOkF] at hpj
        rcases Bool.or_eq_true_iff.mp hpj with h | h
        · exact absurd h hfl
        · exact h
      have h1 := of_decide_eq_true hcl
      rw [qmul_eq, powQ_eq r (by omega)] at h1
      exact h1
  · exact hmin (j - 1) (by omega) (by omega)

/-- Formatting then parsing at the same radix restores the input float. -/
theorem fmt_roundtrip (fmt : FloatFmt) (hw : fmt.wf) (hs : fmt.sized)
    (r : ℕ) (hr : 2 ≤ r) (M0 : ℕ) (E0 : ℤ)
    (hM0 : M0 < 2 ^ fmt.prec) (hE0 : fmt.emin ≤ E0) (hE0x : E0 ≤ fmt.emax)
    (hpos : 0 < M0) (hcan : fmt.canonical M0 E0) :
    parseDigits fmt r (fmtDigits fmt r M0 E0).1 (fmtDigits fmt r M0 E0).2
      = .finite M0 E0 := by
  obtain ⟨j, hj, hj1, hjf, hexp, hcand, hparse, hfail⟩ :=
    fmtCore_spec fmt hw hs r hr M0 E0 hM0 hE0 hE0x hpos hcan
  rw [parseDigits, fmtDigits]
  rw [fromDigits_toDigits r hr]
  rw [qmul_eq, powQ_eq r (by omega)]
  exact hparse

theorem fmtBase_natFloor (r : ℕ) (hr : 2 ≤ r) (M0 : ℕ) (E0 : ℤ) (j : ℕ) :
    fmtBase r M0 E0 j = ⌊(M0 : ℚ) * (2:ℚ) ^ E0 * ((r:ℕ) : ℚ) ^ ((nLow + j : ℤ))⌋₊ := by
  have h1 := fmtBase_cast r hr M0 E0 j
  have h2 : ((fmtBase r M0 E0 j : ℕ) : ℤ).toNat = fmtBase r M0 E0 j := Int.toNat_natCast _
  rw [h1] at h2
  rw [← h2, Int.floor_toNat]

/-- One scale down, the truncation is the integer division by the radix. -/
theorem fmtBase_pred_div (r : ℕ) (hr : 2 ≤ r) (M0 : ℕ) (E0 : ℤ) (j : ℕ) (hj : 1 ≤ j) :
    fmtBase r M0 E0 (j - 1) = fmtBase r M0 E0 j / r := by
  rw [fmtBase_natFloor r hr M0 E0 (j - 1), fmtBase_natFloor r hr M0 E0 j]
  have hrq0 : ((r:ℕ):ℚ) ≠ 0 := by
    have : (0:ℕ) < r := by omega
    exact_mod_cast this.ne'
  have hc : ((j - 1 : ℕ) : ℤ) = (j : ℤ) - 1 := by omega
  have hz : (M0 : ℚ) * (2:ℚ) ^ E0 * ((r:ℕ) : ℚ) ^ ((nLow + (j - 1 : ℕ) : ℤ))
      = ((M0 : ℚ) * (2:ℚ) ^ E0 * ((r:ℕ) : ℚ) ^ ((nLow + j : ℤ))) / ((r:ℕ):ℚ) := by
    rw [hc, show (nLow + ((j:ℤ) - 1)) = (nLow + j) + (-1) by ring,
      zpow_add₀ hrq0, zpow_neg, zpow_one]
    ring
  rw [hz, Nat.floor_div_nat]

/-- Removing the trailing digit of the formatter output and re-parsing
never restores the input float. -/
theorem fmt_dropLast_ne (fmt : FloatFmt) (hw : fmt.wf) (hs : fmt.sized)
    (r : ℕ) (hr : 2 ≤ r) (M0 : ℕ) (E0 : ℤ)
    (hM0 : M0 < 2 ^ fmt.prec) (hE0 : fmt.emin ≤ E0) (hE0x : E0 ≤ fmt.emax)
    (hpos : 0 < M0) (hcan : fmt.canonical M0 E0) :
    parseDigits fmt r (fmtDigits fmt r M0 E0).1.dropLast ((fmtDigits fmt r M0 E0).2 + 1)
      ≠ .finite M0 E0 := by
  obtain ⟨j, hj, hj1, hjf, hexp, hcand, hparse, hfail⟩ :=
    fmtCore_spec fmt hw hs r hr M0 E0 hM0 hE0 hE0x hpos hcan
  rw [parseDigits, fmtDigits]
  rw [fromDigits_dropLast r hr]
  have hexp1 : (fmtCore fmt r M0 E0).2 + 1 = -(nLow + ((j - 1 : ℕ) : ℤ)) := by
    rw [hexp]
    omega
  rw [hexp1]
  have hcomp := fmtBase_pred_div r hr M0 E0 j hj1
  have hDdiv : (fmtCore fmt r M0 E0).1 / r = fmtBase r M0 E0 (j - 1) ∨
      (fmtCore fmt r M0 E0).1 / r = fmtBase r M0 E0 (j - 1) + 1 := by
    rcases hcand with h | h
    · left
      rw [h, hcomp]
    · rw [h, Nat.succ_div]
      by_cases hdvd : r ∣ fmtBase r M0 E0 j + 1
      · right
        rw [if_pos hdvd, hcomp]
      · left
        rw [if_neg hdvd, hcomp, Nat.add_zero]
  rw [fmtOkF, Bool.or_eq_false_iff] at hfail
  obtain ⟨hf1, hf2⟩ := hfail
  rcases hDdiv with h | h
  · rw [h]
    rw [fmtOkFloor] at hf1
    exact of_decide_eq_false hf1
  · rw [h]
    rw [fmtOkCeil] at hf2
    exact of_decide_eq_false hf2

/-- Length in bytes of a scientific-notation rendering: sign, mantissa
digits, decimal point, exponent marker, exponent sign, exponent digits. -/
def sciLength (ds : List ℕ) (x : ℤ) : ℕ :=
  1 + ds.length + 1 + 1 + 1 + (toDigits 10 x.natAbs).length

/-- The emitted significand is below `r * 2 ^ (prec + 2)` and the
scientific exponent stays in the search window. -/
theorem fmtCore_bounds (fmt : FloatFmt) (hw : fmt.wf) (hs : fmt.sized)
    (r : ℕ) (hr : 2 ≤ r) (M0 : ℕ) (E0 : ℤ)
    (hM0 : M0 < 2 ^ fmt.prec) (hE0 : fmt.emin ≤ E0) (hE0x : E0 ≤ fmt.emax)
    (hpos : 0 < M0) (hcan : fmt.canonical M0 E0) :
    (fmtCore fmt r M0 E0).1 < r * 2 ^ (fmt.prec + 2) ∧
    -(1299:ℤ) ≤ (fmtCore fmt r M0 E0).2 ∧ (fmtCore fmt r M0 E0).2 ≤ 1099 := by
  obtain ⟨j, hj, hj1, hjf, hexp, hcand, hparse, hfail⟩ :=
    fmtCore_spec fmt hw hs r hr M0 E0 hM0 hE0 hE0x hpos hcan
  have hnl : nLow = -1100 := rfl
  constructor
  · -- the scale below failed, so the prior scale was not yet precise
    have hnotfl : fmtOkFloor fmt r M0 E0 (j - 1) = false := by
      rw [fmtOkF, Bool.or_eq_false_iff] at hfail
      exact hfail.1
    have himp : ¬ ((2:ℚ) ^ ((2 : ℤ) - E0) ≤ ((r:ℕ) : ℚ) ^ ((nLow + (j - 1 : ℕ) : ℤ))) := by
      intro hcon
      have hcon2 := fmtOkFloor_of_precise fmt hw r hr M0 E0 hM0 hE0 hE0x hpos hcan (j - 1) hcon
      rw [hcon2] at hnotfl
      exact Bool.noConfusion hnotfl
    have hlt : ((r:ℕ) : ℚ) ^ ((nLow + (j - 1 : ℕ) : ℤ)) < (2:ℚ) ^ ((2 : ℤ) - E0) :=
      lt_of_not_le himp
    have hrq0 : ((r:ℕ):ℚ) ≠ 0 := by
      have : (0:ℕ) < r := by omega
      exact_mod_cast this.ne'
    have hrq2 : (2:ℚ) ≤ ((r:ℕ):ℚ) := by exact_mod_cast hr
    have hrqpos : (0:ℚ) < ((r:ℕ):ℚ) := by linarith
    have hc : ((j - 1 : ℕ) : ℤ) = (j : ℤ) - 1 := by omega
    have hsplit : ((r:ℕ) : ℚ) ^ ((nLow + j : ℤ))
        = ((r:ℕ) : ℚ) ^ ((nLow + (j - 1 : ℕ) : ℤ)) * ((r:ℕ):ℚ) := by
      rw [hc, show (nLow + (j:ℤ)) = (nLow + ((j:ℤ) - 1)) + 1 by ring,
        zpow_add₀ hrq0, zpow_one]
    have hM0q : ((M0:ℕ) : ℚ) ≤ (2:ℚ) ^ ((fmt.prec : ℤ)) - 1 := by
      have h1 : M0 + 1 ≤ 2 ^ fmt.prec := hM0
      have h2 : ((M0 + 1 : ℕ) : ℚ) ≤ ((2 ^ fmt.prec : ℕ) : ℚ) := by exact_mod_cast h1
      rw [natCast_two_pow] at h2
      push_cast at h2
      linarith
    have hE0pow : (0:ℚ) < (2:ℚ) ^ E0 := by positivity
    obtain ⟨hp, hee⟩ := hw
    have hpgt : (1:ℚ) < (2:ℚ) ^ ((fmt.prec : ℤ)) := by
      have h1 : (2:ℕ) ≤ 2 ^ fmt.prec := by
        calc (2:ℕ) = 2 ^ 1 := by norm_num
        _ ≤ 2 ^ fmt.prec := Nat.pow_le_pow_right (by norm_num) (by omega)
      have h2 : ((2:ℕ):ℚ) ≤ ((2 ^ fmt.prec : ℕ) : ℚ) := by exact_mod_cast h1
      rw [natCast_two_pow] at h2
      push_cast at h2
      linarith
    have hmid : (2:ℚ) ^ E0 * (2:ℚ) ^ ((2 : ℤ) - E0) = 4 := by
      rw [← zpow_add₀ (by norm_num : (2:ℚ) ≠ 0),
        show (E0 + (2 - E0)) = ((2:ℕ) : ℤ) by push_cast; ring, zpow_natCast]
      norm_num
    have hp2 : (2:ℚ) ^ ((fmt.prec : ℤ) + 2) = (2:ℚ) ^ ((fmt.prec : ℤ)) * 4 := by
      rw [zpow_add₀ (by norm_num : (2:ℚ) ≠ 0),
        show (2:ℤ) = ((2:ℕ) : ℤ) by norm_num, zpow_natCast]
      norm_num
    have hzbound : (M0 : ℚ) * (2:ℚ) ^ E0 * ((r:ℕ) : ℚ) ^ ((nLow + j : ℤ))
        < ((r:ℕ):ℚ) * (2:ℚ) ^ ((fmt.prec : ℤ) + 2) - 4 * ((r:ℕ):ℚ) := by
      rw [hsplit]
      have h1 : (M0 : ℚ) * (2:ℚ) ^ E0 * (((r:ℕ) : ℚ) ^ ((nLow + (j - 1 : ℕ) : ℤ)) * ((r:ℕ):ℚ))
          < ((2:ℚ) ^ ((fmt.prec : ℤ)) - 1) * (2:ℚ) ^ E0 * ((2:ℚ) ^ ((2 : ℤ) - E0) * ((r:ℕ):ℚ)) := by
        have hm0pos : (0:ℚ) < (M0:ℚ) := by exact_mod_cast hpos
        have hrpow : (0:ℚ) < ((r:ℕ) : ℚ) ^ ((nLow + (j - 1 : ℕ) : ℤ)) := by positivity
        apply mul_lt_mul'
        · exact mul_le_mul_of_nonneg_right hM0q (le_of_lt hE0pow)
        · exact mul_lt_mul_of_pos_right hlt hrqpos
        · positivity
        · nlinarith
      have h2 : ((2:ℚ) ^ ((fmt.prec : ℤ)) - 1) * (2:ℚ) ^ E0 * ((2:ℚ) ^ ((2 : ℤ) - E0) * ((r:ℕ):ℚ))
          = ((r:ℕ):ℚ) * (2:ℚ) ^ ((fmt.prec : ℤ) + 2) - 4 * ((r:ℕ):ℚ) := by
        calc ((2:ℚ) ^ ((fmt.prec : ℤ)) - 1) * (2:ℚ) ^ E0 * ((2:ℚ) ^ ((2 : ℤ) - E0) * ((r:ℕ):ℚ))
            = ((2:ℚ) ^ ((fmt.prec : ℤ)) - 1) * ((2:ℚ) ^ E0 * (2:ℚ) ^ ((2 : ℤ) - E0)) * ((r:ℕ):ℚ) := by
              ring
        _ = ((2:ℚ) ^ ((fmt.prec : ℤ)) - 1) * 4 * ((r:ℕ):ℚ) := by rw [hmid]
        _ = ((r:ℕ):ℚ) * ((2:ℚ) ^ ((fmt.prec : ℤ)) * 4) - 4 * ((r:ℕ):ℚ) := by ring
        _ = ((r:ℕ):ℚ) * (2:ℚ) ^ ((fmt.prec : ℤ) + 2) - 4 * ((r:ℕ):ℚ) := by rw [← hp2]
      linarith
    have hcastN : ((r * 2 ^ (fmt.prec + 2) : ℕ) : ℚ)
        = ((r:ℕ):ℚ) * (2:ℚ) ^ ((fmt.prec : ℤ) + 2) := by
      rw [show ((fmt.prec : ℤ) + 2) = (((fmt.prec + 2 : ℕ)) : ℤ) by push_cast; ring,
        zpow_natCast]
      push_cast
      ring
    have hfb1 : fmtBase r M0 E0 j + 1 < r * 2 ^ (fmt.prec + 2) := by
      have h1 := fmtBase_natFloor r hr M0 E0 j
      have h2 : (⌊(M0 : ℚ) * (2:ℚ) ^ E0 * ((r:ℕ) : ℚ) ^ ((nLow + j : ℤ))⌋₊ : ℚ)
          ≤ (M0 : ℚ) * (2:ℚ) ^ E0 * ((r:ℕ) : ℚ) ^ ((nLow + j : ℤ)) := by
        apply Nat.floor_le
        have hm0pos : (0:ℚ) < (M0:ℚ) := by exact_mod_cast hpos
        positivity
    -- cast the strict integer comparison back to the naturals
      have h3 : ((fmtBase r M0 E0 j + 1 : ℕ) : ℚ) < ((r * 2 ^ (fmt.prec + 2) : ℕ) : ℚ) := by
        rw [Nat.cast_add, Nat.cast_one, hcastN, h1]
        have h4 : (⌊(M0 : ℚ) * (2:ℚ) ^ E0 * ((r:ℕ) : ℚ) ^ ((nLow + j : ℤ))⌋₊ : ℚ)
            < ((r:ℕ):ℚ) * (2:ℚ) ^ ((fmt.prec : ℤ) + 2) - 4 * ((r:ℕ):ℚ) :=
          lt_of_le_of_lt h2 hzbound
        linarith
      exact_mod_cast h3
    rcases hcand with h | h <;> rw [h] <;> omega
  · rw [hexp, hnl]
    rw [fmtFuel] at hjf
    constructor <;> omega

theorem fmt_sciLength_le (fmt : FloatFmt) (hw : fmt.wf) (hs : fmt.sized)
    (r : ℕ) (hr : 2 ≤ r) (hr36 : r ≤ 36) (M0 : ℕ) (E0 : ℤ)
    (hM0 : M0 < 2 ^ fmt.prec) (hE0 : fmt.emin ≤ E0) (hE0x : E0 ≤ fmt.emax)
    (hpos : 0 < M0) (hcan : fmt.canonical M0 E0) :
    sciLength (fmtDigits fmt r M0 E0).1 (fmtDigits fmt r M0 E0).2 ≤ 64 ∧
    (r = 10 → sciLength (fmtDigits fmt r M0 E0).1 (fmtDigits fmt r M0 E0).2 ≤ 26) := by
  obtain ⟨hD, hx1, hx2⟩ := fmtCore_bounds fmt hw hs r hr M0 E0 hM0 hE0 hE0x hpos hcan
  obtain ⟨hs1, hs2, hs3⟩ := hs
  have hexplen : (toDigits 10 (fmtCore fmt r M0 E0).2.natAbs).length ≤ 4 := by
    apply toDigits_length 10 (by norm_num) _ 4 _ (by norm_num)
    have h1 : (fmtCore fmt r M0 E0).2.natAbs ≤ 1299 := by omega
    omega
  constructor
  · -- any radix: at most 56 significand digits
    have hDlt : (fmtCore fmt r M0 E0).1 < r ^ (fmt.prec + 3) := by
      have h1 : r * 2 ^ (fmt.prec + 2) ≤ r * r ^ (fmt.prec + 2) :=
        Nat.mul_le_mul_left r (Nat.pow_le_pow_left hr _)
      have h2 : r * r ^ (fmt.prec + 2) = r ^ (fmt.prec + 3) := by ring
      omega
    have hdl : (toDigits r (fmtCore fmt r M0 E0).1).length ≤ fmt.prec + 3 :=
      toDigits_length r hr _ _ hDlt (by omega)
    simp only [sciLength, fmtDigits]
    have : (toDigits r (fmtCore fmt r M0 E0).1).length ≤ 56 := by omega
    omega
  · intro hr10
    -- decimal: the significand is below 10 ^ 18
    have hDlt : (fmtCore fmt r M0 E0).1 < 10 ^ 18 := by
      have h1 : r * 2 ^ (fmt.prec + 2) ≤ 10 * 2 ^ 55 := by
        rw [hr10]
        have h2 : (2:ℕ) ^ (fmt.prec + 2) ≤ 2 ^ 55 := Nat.pow_le_pow_right (by norm_num) (by omega)
        omega
      have h3 : (10:ℕ) * 2 ^ 55 < 10 ^ 18 := by norm_num
      omega
    clear hD
    have hdl : (toDigits r (fmtCore fmt r M0 E0).1).length ≤ 18 := by
      rw [hr10]
      rw [hr10] at hDlt
      exact toDigits_length 10 (by norm_num) _ 18 hDlt (by norm_num)
    simp only [sciLength, fmtDigits]
    omega

/-! ### Buffer sizing constants (`lexical-util/src/constants.rs`) -/

namespace F32

/-- `FormattedSize for f32`: 256 with the power-of-two feature, 64 without. -/
def FORMATTED_SIZE (power_of_two : Bool) : ℕ := if power_of_two then 256 else 64

/-- `FormattedSize for f32`, decimal buffer. -/
def FORMATTED_SIZE_DECIMAL : ℕ := 64

end F32

namespace F64

/-- `FormattedSize for f64`: 256 with the power-of-two feature, 64 without. -/
def FORMATTED_SIZE (power_of_two : Bool) : ℕ := if power_of_two then 256 else 64

/-- `FormattedSize for f64`, decimal buffer. -/
def FORMATTED_SIZE_DECIMAL : ℕ := 64

end F64

/-- `BUFFER_SIZE = f64::FORMATTED_SIZE`. -/
def BUFFER_SIZE (power_of_two : Bool) : ℕ := F64.FORMATTED_SIZE power_of_two

/-! ### The byte-level tokenizer of the partial-parse entry point.

Modelled from the spec: the tokenizer validates the decimal grammar
(integer digits, optional point and fraction digits, optional exponent
marker with signed digits), raises `EmptyMantissa`/`EmptyExponent` with
a byte offset, and otherwise hands the digit stream to the core; parsing
stops at the first byte that fits no grammar component and reports the
number of bytes consumed. -/

/-- Error kinds surfaced by the tokenizer. -/
inductive ErrorCode where
  | emptyMantissa : ErrorCode
  | emptyExponent : ErrorCode
deriving DecidableEq, Repr

instance exceptDecEq {α β : Type} [DecidableEq α] [DecidableEq β] :
    DecidableEq (Except α β) := fun x y =>
  match x, y with
  | .error a, .error b =>
      if h : a = b then .isTrue (h ▸ rfl)
      else .isFalse (fun hc => by cases hc; exact h rfl)
  | .error _, .ok _ => .isFalse (fun hc => Except.noConfusion hc)
  | .ok _, .error _ => .isFalse (fun hc => Except.noConfusion hc)
  | .ok a, .ok b =>
      if h : a = b then .isTrue (h ▸ rfl)
      else .isFalse (fun hc => by cases hc; exact h rfl)

/-- Numeric value of an ASCII digit character. -/
def digVal (c : Char) : ℕ := c.toNat - 48

/-- Modelled from the spec: tokenize a decimal input and run the core on
the digit stream; returns the rounded value and the bytes consumed, or a
grammar error with its offset. -/
def lexParse (fmt : FloatFmt) (s : List Char) : Except (ErrorCode × ℕ) (FltR × ℕ) :=
  let intDs := s.takeWhile Char.isDigit
  let rest1 := s.drop intDs.length
  let hasDot : Bool := match rest1 with
    | c :: _ => c == '.'
    | [] => false
  let fracDs := if hasDot then (rest1.drop 1).takeWhile Char.isDigit else []
  let rest2 := if hasDot then (rest1.drop 1).drop fracDs.length else rest1
  if intDs.length = 0 ∧ fracDs.length = 0 then
    .error (.emptyMantissa, 0)
  else
    let consumed2 := intDs.length + (if hasDot then 1 + fracDs.length else 0)
    let mantissa : ℕ := fromDigits 10 ((intDs ++ fracDs).map digVal)
    let hasExp : Bool := match rest2 with
      | c :: _ => c == 'e' || c == 'E'
      | [] => false
    if hasExp then
      let rest3 := rest2.drop 1
      let signInfo : ℤ × ℕ × List Char := match rest3 with
        | '+' :: t => (1, 1, t)
        | '-' :: t => (-1, 1, t)
        | t => (1, 0, t)
      let expDs := signInfo.2.2.takeWhile Char.isDigit
      if expDs.length = 0 then
        .error (.emptyExponent, consumed2 + 1 + signInfo.2.1)
      else
        let e : ℤ := signInfo.1 * (fromDigits 10 (expDs.map digVal) : ℤ)
        .ok (roundPos fmt (qmul ((mantissa : ℕ) : ℚ) (powQ 10 (e - fracDs.length))),
          consumed2 + 1 + signInfo.2.1 + expDs.length)
    else
      .ok (roundPos fmt (qmul ((mantissa : ℕ) : ℚ) (powQ 10 (-(fracDs.length : ℤ)))), consumed2)

/-! ### Grisu cached powers (`lexical-write-float/src/table_grisu.rs`) -/

/-- The 87 cached Grisu mantissas for `10 ^ (-348 + 8 i)`. -/
def GRISU_POWERS_OF_TEN : List ℕ := [
  0xfa8fd5a0081c0288, 0xbaaee17fa23ebf76, 0x8b16fb203055ac76, 0xcf42894a5dce35ea,
  0x9a6bb0aa55653b2d, 0xe61acf033d1a45df, 0xab70fe17c79ac6ca, 0xff77b1fcbebcdc4f,
  0xbe5691ef416bd60c, 0x8dd01fad907ffc3c, 0xd3515c2831559a83, 0x9d71ac8fada6c9b5,
  0xea9c227723ee8bcb, 0xaecc49914078536d, 0x823c12795db6ce57, 0xc21094364dfb5637,
  0x9096ea6f3848984f, 0xd77485cb25823ac7, 0xa086cfcd97bf97f4, 0xef340a98172aace5,
  0xb23867fb2a35b28e, 0x84c8d4dfd2c63f3b, 0xc5dd44271ad3cdba, 0x936b9fcebb25c996,
  0xdbac6c247d62a584, 0xa3ab66580d5fdaf6, 0xf3e2f893dec3f126, 0xb5b5ada8aaff80b8,
  0x87625f056c7c4a8b, 0xc9bcff6034c13053, 0x964e858c91ba2655, 0xdff9772470297ebd,
  0xa6dfbd9fb8e5b88f, 0xf8a95fcf88747d94, 0xb94470938fa89bcf, 0x8a08f0f8bf0f156b,
  0xcdb02555653131b6, 0x993fe2c6d07b7fac, 0xe45c10c42a2b3b06, 0xaa242499697392d3,
  0xfd87b5f28300ca0e, 0xbce5086492111aeb, 0x8cbccc096f5088cc, 0xd1b71758e219652c,
  0x9c40000000000000, 0xe8d4a51000000000, 0xad78ebc5ac620000, 0x813f3978f8940984,
  0xc097ce7bc90715b3, 0x8f7e32ce7bea5c70, 0xd5d238a4abe98068, 0x9f4f2726179a2245,
  0xed63a231d4c4fb27, 0xb0de65388cc8ada8, 0x83c7088e1aab65db, 0xc45d1df942711d9a,
  0x924d692ca61be758, 0xda01ee641a708dea, 0xa26da3999aef774a, 0xf209787bb47d6b85,
  0xb454e4a179dd1877, 0x865b86925b9bc5c2, 0xc83553c5c8965d3d, 0x952ab45cfa97a0b3,
  0xde469fbd99a05fe3, 0xa59bc234db398c25, 0xf6c69a72a3989f5c, 0xb7dcbf5354e9bece,
  0x88fcf317f22241e2, 0xcc20ce9bd35c78a5, 0x98165af37b2153df, 0xe2a0b5dc971f303a,
  0xa8d9d1535ce3b396, 0xfb9b7cd9a4a7443c, 0xbb764c4ca7a44410, 0x8bab8eefb6409c1a,
  0xd01fef10a657842c, 0x9b10a4e5e9913129, 0xe7109bfba19c0c9d, 0xac2820d9623bf429,
  0x80444b5e7aa7cf85, 0xbf21e44003acdd2d, 0x8e679c2f5e44ff8f, 0xd433179d9c8cb841,
  0x9e19db92b4e31ba9, 0xeb96bf6ebadf77d9, 0xaf87023b9bf0ee6b]

/-- Binary exponent of the cached power for decimal exponent `e`, as in
the table's doc comment: `((e * (152170 + 65536)) >> 16) - 63`. -/
def grisuBinExp (e : ℤ) : ℤ := e * (152170 + 65536) / 65536 - 63

/-- The closed form from the spec, `ceil(e * log2(10)) - 64`, with
`log2(10)` in the same 16-bit fixed-point approximation. -/
def grisuBinExpCeil (e : ℤ) : ℤ := -(-(e * (152170 + 65536)) / 65536) - 64

/-- Exact rational `10 ^ e`, computably. -/
def pow10Q (e : ℤ) : ℚ :=
  if 0 ≤ e then ((10 ^ e.toNat : ℕ) : ℚ) else mkRat 1 (10 ^ (-e).toNat)

theorem pow10Q_eq (e : ℤ) : pow10Q e = (10 : ℚ) ^ e := by
  rw [pow10Q]
  split
  · rename_i h
    rw [Nat.cast_pow, Nat.cast_ofNat, ← zpow_natCast (10:ℚ) e.toNat,
      Int.toNat_of_nonneg h]
  · rename_i h
    obtain ⟨k, hek, htn⟩ : ∃ k : ℕ, e = -(k:ℤ) ∧ (-e).toNat = k :=
      ⟨(-e).toNat, by omega, rfl⟩
    rw [htn, hek, zpow_neg, zpow_natCast, Rat.mkRat_eq_div]
    push_cast
    rw [one_div]

/-! ### Unsigned integer writer (`lexical-write-integer`).

Modelled from the spec: `write_mantissa` emits the big-endian digits of
the value in the given radix as ASCII bytes, writing `0` as the single
byte `'0'` and using uppercase letters for digits `10..36`; its tests
read the bytes back with `from_str_radix`. -/

/-- ASCII byte of a digit: `'0'..'9'` then uppercase `'A'..'Z'`. -/
def digitByte (d : ℕ) : ℕ := if d < 10 then 48 + d else 55 + d

/-- Byte output of `write_mantissa` at a given radix. -/
def writeMantissa (r : ℕ) (n : ℕ) : List ℕ := (toDigits r n).map digitByte

/-- Digit value of an ASCII byte, case-insensitive
(`core::num::from_str_radix` semantics). -/
def byteVal (b : ℕ) : Option ℕ :=
  if 48 ≤ b ∧ b ≤ 57 then some (b - 48)
  else if 97 ≤ b ∧ b ≤ 122 then some (b - 87)
  else if 65 ≤ b ∧ b ≤ 90 then some (b - 55)
  else none

/-- One accumulation step of `from_str_radix`. -/
def fsrStep (r : ℕ) (acc : Option ℕ) (b : ℕ) : Option ℕ :=
  match acc, byteVal b with
  | some a, some d => if d < r then some (a * r + d) else none
  | _, _ => none

/-- `from_str_radix`: rejects an empty string or any invalid digit,
otherwise accumulates left to right. -/
def fromStrRadix (r : ℕ) (s : List ℕ) : Option ℕ :=
  if s = [] then none
  else s.foldl (fsrStep r) (some 0)

theorem byteVal_digitByte (d : ℕ) (h : d < 36) : byteVal (digitByte d) = some d := by
  by_cases h10 : d < 10
  · rw [digitByte, if_pos h10, byteVal, if_pos (by omega)]
    congr 1
    omega
  · rw [digitByte, if_neg h10, byteVal,
      if_neg (by omega), if_neg (by omega), if_pos (by omega)]
    congr 1
    omega

theorem fsrStep_eq (r b d a : ℕ) (hb : byteVal b = some d) (hd : d < r) :
    fsrStep r (some a) b = some (a * r + d) := by
  simp only [fsrStep]
  rw [hb]
  simp [hd]

theorem fromStrRadix_go (r : ℕ) (hr : r ≤ 36) (ds : List ℕ) (hds : ∀ d ∈ ds, d < r)
    (a : ℕ) :
    (ds.map digitByte).foldl (fsrStep r) (some a)
      = some (a * r ^ ds.length + fromDigits r ds) := by
  induction ds generalizing a with
  | nil => simp [fromDigits]
  | cons d ds ih =>
    have hd : d < r := hds d (by simp)
    have hd36 : d < 36 := by omega
    rw [List.map_cons, List.foldl_cons,
      fsrStep_eq r (digitByte d) d a (byteVal_digitByte d hd36) hd]
    rw [ih (fun x hx => hds x (by simp [hx])) (a * r + d)]
    congr 1
    rw [fromDigits, List.length_cons]
    ring

theorem toDigits_ne_nil (r n : ℕ) : toDigits r n ≠ [] := by
  rw [toDigits]
  by_cases hz : n = 0
  · rw [if_pos hz]
    simp
  · rw [if_neg hz]
    intro hcon
    have h1 : digitsLE n r n = [] := by
      have := congrArg List.reverse hcon
      simpa using this
    obtain ⟨f, hf⟩ : ∃ f, n = f + 1 := ⟨n - 1, by omega⟩
    rw [hf] at h1
    conv at h1 => lhs; rw [digitsLE]
    rw [if_neg (by omega)] at h1
    exact List.noConfusion h1

/-- `write_mantissa` round-trips through `from_str_radix`. -/
theorem writeMantissa_roundtrip (r : ℕ) (hr : 2 ≤ r) (hr36 : r ≤ 36) (n : ℕ) :
    fromStrRadix r (writeMantissa r n) = some n := by
  rw [fromStrRadix, writeMantissa]
  rw [if_neg (by
    intro hcon
    exact toDigits_ne_nil r n (by
      cases h : toDigits r n with
      | nil => rfl
      | cons x xs =>
        rw [h] at hcon
        exact List.noConfusion hcon))]
  rw [fromStrRadix_go r hr36 (toDigits r n) (toDigits_lt r hr n) 0]
  rw [fromDigits_toDigits r hr, Nat.zero_mul, Nat.zero_add]

/-! ### Helper lemmas on the overflow threshold -/

theorem two_pow_natCast_q (p : ℕ) : ((2 ^ p : ℕ) : ℚ) = (2:ℚ) ^ p := by
  push_cast
  ring

theorem overflowBound_pos (fmt : FloatFmt) : 0 < fmt.overflowBound := by
  rw [FloatFmt.overflowBound]
  have h2 : (1:ℚ) ≤ (2:ℚ) ^ fmt.prec := by
    rw [← two_pow_natCast_q]
    exact_mod_cast Nat.one_le_two_pow
  have h3 : (0:ℚ) < (2:ℚ) ^ fmt.emax := by positivity
  nlinarith

theorem maxFinite_lt_overflowBound (fmt : FloatFmt) :
    fmt.maxFinite < fmt.overflowBound := by
  rw [FloatFmt.maxFinite, FloatFmt.overflowBound]
  have hc : ((2 ^ fmt.prec - 1 : ℕ) : ℚ) = (2:ℚ) ^ fmt.prec - 1 := by
    rw [Nat.cast_sub Nat.one_le_two_pow, two_pow_natCast_q, Nat.cast_one]
  rw [hc]
  have h3 : (0:ℚ) < (2:ℚ) ^ fmt.emax := by positivity
  nlinarith

theorem maxFinite_add_one_lt (fmt : FloatFmt) (hx : (2:ℤ) ≤ fmt.emax) :
    fmt.maxFinite + 1 < fmt.overflowBound := by
  rw [FloatFmt.maxFinite, FloatFmt.overflowBound]
  have hc : ((2 ^ fmt.prec - 1 : ℕ) : ℚ) = (2:ℚ) ^ fmt.prec - 1 := by
    rw [Nat.cast_sub Nat.one_le_two_pow, two_pow_natCast_q, Nat.cast_one]
  rw [hc, sub_mul, sub_mul]
  have h4 : (4:ℚ) ≤ (2:ℚ) ^ fmt.emax := by
    have h5 : (2:ℚ) ^ (2:ℤ) ≤ (2:ℚ) ^ fmt.emax := zpow_le_of_le (by norm_num) hx
    have h6 : (2:ℚ) ^ (2:ℤ) = 4 := by
      rw [show (2:ℤ) = ((2:ℕ) : ℤ) by norm_num, zpow_natCast]
      norm_num
    linarith
  linarith

theorem maxFinite_nonneg (fmt : FloatFmt) : 0 ≤ fmt.maxFinite := by
  rw [FloatFmt.maxFinite]
  positivity

/-! ### The claims -/

/-- C1: parsing a digit string at any radix under the default
NearestTiesEven rounding returns the correctly-rounded nearest
representable float (and breaks exact ties toward the even mantissa);
in particular the decimal inputs 9007199254740993 and 9007199254740995
at the `2 ^ 53` boundary round to the even-mantissa neighbors
9007199254740992 and 9007199254740996. -/
theorem claim_C1 :
    (∀ (fmt : FloatFmt), fmt.wf → ∀ (r : ℕ), 2 ≤ r → ∀ (ds : List ℕ) (x : ℤ),
        0 < fromDigits r ds → ∀ (M : ℕ) (E : ℤ),
        parseDigits fmt r ds x = FltR.finite M E →
        (∀ (m : ℕ) (e : ℤ), m < 2 ^ fmt.prec → fmt.emin ≤ e →
          |(M:ℚ) * (2:ℚ) ^ E - ((fromDigits r ds : ℕ) : ℚ) * ((r:ℕ) : ℚ) ^ x|
            ≤ |(m:ℚ) * (2:ℚ) ^ e - ((fromDigits r ds : ℕ) : ℚ) * ((r:ℕ) : ℚ) ^ x|) ∧
        (∀ (m : ℕ) (e : ℤ), m < 2 ^ fmt.prec → fmt.emin ≤ e →
          (m:ℚ) * (2:ℚ) ^ e ≠ (M:ℚ) * (2:ℚ) ^ E →
          |(m:ℚ) * (2:ℚ) ^ e - ((fromDigits r ds : ℕ) : ℚ) * ((r:ℕ) : ℚ) ^ x|
            = |(M:ℚ) * (2:ℚ) ^ E - ((fromDigits r ds : ℕ) : ℚ) * ((r:ℕ) : ℚ) ^ x| →
          M % 2 = 0)) ∧
    parseDigits fmt64 10 (toDigits 10 9007199254740993) 0 = FltR.finite 4503599627370496 1 ∧
    parseDigits fmt64 10 (toDigits 10 9007199254740995) 0 = FltR.finite 4503599627370498 1 := by
  refine ⟨?_, by decide, by decide⟩
  intro fmt hw r hr ds x hpos M E h
  have hq0 : (0:ℚ) < ((fromDigits r ds : ℕ) : ℚ) * ((r:ℕ) : ℚ) ^ x := by
    have h1 : (0:ℚ) < ((fromDigits r ds : ℕ) : ℚ) := by exact_mod_cast hpos
    have h2 : (0:ℚ) < ((r:ℕ) : ℚ) := by
      have : (0:ℕ) < r := by omega
      exact_mod_cast this
    have h3 : (0:ℚ) < ((r:ℕ) : ℚ) ^ x := zpow_pos h2 x
    exact mul_pos h1 h3
  rw [parseDigits, qmul_eq, powQ_eq r (by omega)] at h
  constructor
  · intro m e hm he
    exact roundPos_nearest fmt hw _ hq0 M E h m e hm he
  · intro m e hm he hne heq
    exact roundPos_tie_even fmt hw _ hq0 M E h m e hm he hne heq

/-- Witness for C1 at the concrete input `5` (decimal): the parser
returns `5629499534213120 * 2 ^ (-50)` and it is at least as close to 5
as the representable candidate `1 * 2 ^ 0`. -/
theorem claim_C1_witness :
    |((5629499534213120 : ℕ) : ℚ) * (2:ℚ) ^ (-50 : ℤ)
        - ((fromDigits 10 [5] : ℕ) : ℚ) * ((10:ℕ) : ℚ) ^ (0 : ℤ)|
      ≤ |((1 : ℕ) : ℚ) * (2:ℚ) ^ (0 : ℤ)
        - ((fromDigits 10 [5] : ℕ) : ℚ) * ((10:ℕ) : ℚ) ^ (0 : ℤ)| :=
  (claim_C1.1 fmt64 fmt64_wf 10 (by norm_num) [5] 0 (by decide)
    5629499534213120 (-50) (by decide)).1 1 0 (by decide) (by decide)

/-- C2: formatting a finite positive float at any radix `r ∈ [2, 36]`
and re-parsing the digit string at the same radix restores exactly the
input float. -/
theorem claim_C2 :
    ∀ (fmt : FloatFmt), fmt.wf → fmt.sized →
    ∀ (r : ℕ), 2 ≤ r → r ≤ 36 →
    ∀ (M0 : ℕ) (E0 : ℤ), M0 < 2 ^ fmt.prec → fmt.emin ≤ E0 → E0 ≤ fmt.emax →
      0 < M0 → fmt.canonical M0 E0 →
      parseDigits fmt r (fmtDigits fmt r M0 E0).1 (fmtDigits fmt r M0 E0).2
        = FltR.finite M0 E0 := by
  intro fmt hw hs r hr _hr36 M0 E0 hM0 hE0 hE0x hpos hcan
  exact fmt_roundtrip fmt hw hs r hr M0 E0 hM0 hE0 hE0x hpos hcan

/-- Witness for C2: the binary32 value `1.0` round-trips through the
decimal formatter. -/
theorem claim_C2_witness :
    parseDigits fmt32 10 (fmtDigits fmt32 10 8388608 (-23)).1
        (fmtDigits fmt32 10 8388608 (-23)).2 = FltR.finite 8388608 (-23) :=
  claim_C2 fmt32 fmt32_wf fmt32_sized 10 (by norm_num) (by norm_num)
    8388608 (-23) (by decide) (by decide) (by decide) (by decide) (Or.inl (by decide))

/-- C3: the formatter's digit output is minimal: dropping its trailing
digit (which steps the scientific exponent up by one) and re-parsing
never restores the original float. -/
theorem claim_C3 :
    ∀ (fmt : FloatFmt), fmt.wf → fmt.sized →
    ∀ (r : ℕ), 2 ≤ r → r ≤ 36 →
    ∀ (M0 : ℕ) (E0 : ℤ), M0 < 2 ^ fmt.prec → fmt.emin ≤ E0 → E0 ≤ fmt.emax →
      0 < M0 → fmt.canonical M0 E0 →
      parseDigits fmt r (fmtDigits fmt r M0 E0).1.dropLast
        ((fmtDigits fmt r M0 E0).2 + 1) ≠ FltR.finite M0 E0 := by
  intro fmt hw hs r hr _hr36 M0 E0 hM0 hE0 hE0x hpos hcan
  exact fmt_dropLast_ne fmt hw hs r hr M0 E0 hM0 hE0 hE0x hpos hcan

/-- Witness for C3: dropping the last emitted decimal digit of `1.0`
(binary32) no longer parses back to `1.0`. -/
theorem claim_C3_witness :
    parseDigits fmt32 10 (fmtDigits fmt32 10 8388608 (-23)).1.dropLast
        ((fmtDigits fmt32 10 8388608 (-23)).2 + 1) ≠ FltR.finite 8388608 (-23) :=
  claim_C3 fmt32 fmt32_wf fmt32_sized 10 (by norm_num) (by norm_num)
    8388608 (-23) (by decide) (by decide) (by decide) (by decide) (Or.inl (by decide))

/-- C4: at the binary64 subnormal boundary, decimal `5e-324` and the
binary-radix mantissa `1` with binary exponent `-10000110010₂ = -1074`
both parse to the smallest positive subnormal `1 * 2 ^ (-1074)`, while
the exact halfway input `2 ^ (-1075)` (binary exponent `-10000110011₂`)
rounds down to `+0`. -/
theorem claim_C4 :
    parseDigits fmt64 10 (toDigits 10 5) (-324) = FltR.finite 1 (-1074) ∧
    parseDigits fmt64 2 [1] (-(fromDigits 2 [1,0,0,0,0,1,1,0,0,1,0] : ℤ))
      = FltR.finite 1 (-1074) ∧
    parseDigits fmt64 2 [1] (-(fromDigits 2 [1,0,0,0,0,1,1,0,0,1,1] : ℤ))
      = FltR.finite 0 (-1074) := by
  refine ⟨by decide, by decide, by decide⟩

/-- C5 (corrected): overflow to `+∞` happens exactly at or above the
threshold `(2 ^ prec - 1/2) * 2 ^ emax`, which lies strictly above the
largest finite value, and underflow to `+0` happens exactly at or below
`2 ^ (emin - 1)`, strictly below the smallest subnormal — so an input
exceeding the largest finite float does not always yield `+∞`, and an
input below the smallest subnormal does not always yield `+0`; neither
outcome is an error, and the corpus inputs `18294e304` (binary64) and
`1.565385248817619e-82` (binary32) give `+∞` and `+0` respectively. -/
theorem claim_C5 :
    (∀ (fmt : FloatFmt), fmt.wf → ∀ q : ℚ, 0 < q →
        (roundPos fmt q = FltR.inf ↔ fmt.overflowBound ≤ q)) ∧
    (∀ (fmt : FloatFmt), fmt.wf → ∀ q : ℚ, 0 < q →
        (roundPos fmt q = FltR.finite 0 fmt.emin ↔ q ≤ (2:ℚ) ^ (fmt.emin - 1))) ∧
    fmt64.maxFinite < fmt64.overflowBound ∧
    parseDigits fmt64 10 (toDigits 10 18294) 304 = FltR.inf ∧
    parseDigits fmt32 10 (toDigits 10 1565385248817619) (-97)
      = FltR.finite 0 fmt32.emin := by
  refine ⟨?_, ?_, maxFinite_lt_overflowBound fmt64, by decide, by decide⟩
  · intro fmt hw q hq
    exact roundPos_inf_iff fmt hw q hq
  · intro fmt hw q hq
    exact roundPos_zero_iff fmt hw q hq

/-- Witness for C5: binary64 overflows exactly at its threshold and
flushes the halfway-to-zero input to `+0`. -/
theorem claim_C5_witness :
    roundPos fmt64 fmt64.overflowBound = FltR.inf ∧
    roundPos fmt64 ((2:ℚ) ^ (fmt64.emin - 1)) = FltR.finite 0 fmt64.emin := by
  constructor
  · exact (claim_C5.1 fmt64 fmt64_wf fmt64.overflowBound (overflowBound_pos fmt64)).mpr
      (le_refl _)
  · exact (claim_C5.2.1 fmt64 fmt64_wf ((2:ℚ) ^ (fmt64.emin - 1)) (by positivity)).mpr
      (le_refl _)

/-- Counterexample for C5 as stated: `maxFinite + 1` exceeds the largest
finite binary64 yet does not round to `+∞`, and `3 * 2 ^ (-1076)` lies
below the smallest subnormal `2 ^ (-1074)` yet rounds to it, not to
`+0`. -/
theorem claim_C5_counterexample :
    fmt64.maxFinite < fmt64.maxFinite + 1 ∧
    roundPos fmt64 (fmt64.maxFinite + 1) ≠ FltR.inf ∧
    mkRat 3 (2 ^ 1076) < pow2Q (-1074) ∧
    roundPos fmt64 (mkRat 3 (2 ^ 1076)) = FltR.finite 1 (-1074) := by
  refine ⟨lt_add_one _, ?_, by decide, by decide⟩
  intro hcon
  have h1 : (0:ℚ) < fmt64.maxFinite + 1 := by
    have h0 := maxFinite_nonneg fmt64
    linarith
  rw [roundPos_inf_iff fmt64 fmt64_wf _ h1] at hcon
  have h2 : fmt64.maxFinite + 1 < fmt64.overflowBound :=
    maxFinite_add_one_lt fmt64 (by decide)
  linarith

/-- C6: the core parser is total — for every digit stream and exponent
it returns a float value (finite or `+∞`), never an error. -/
theorem claim_C6 :
    ∀ (fmt : FloatFmt) (r : ℕ) (ds : List ℕ) (x : ℤ) (q : ℚ),
      ((∃ M E, roundPos fmt q = FltR.finite M E) ∨ roundPos fmt q = FltR.inf) ∧
      ((∃ M E, parseDigits fmt r ds x = FltR.finite M E) ∨
        parseDigits fmt r ds x = FltR.inf) := by
  intro fmt r ds x q
  constructor
  · cases h : roundPos fmt q with
    | finite M E => exact Or.inl ⟨M, E, rfl⟩
    | inf => exact Or.inr rfl
  · cases h : parseDigits fmt r ds x with
    | finite M E => exact Or.inl ⟨M, E, rfl⟩
    | inf => exact Or.inr rfl

/-- C7: the Grisu table has exactly 87 entries for decimal exponents
`-348 + 8 i`; each entry is a normalized 64-bit mantissa equal to the
correctly-rounded 64-bit fraction of `10 ^ e` at the binary exponent
given by the table's closed form, and the floor and ceiling forms of
that closed form agree on every covered exponent. -/
theorem claim_C7 :
    GRISU_POWERS_OF_TEN.length = 87 ∧
    ∀ i, i < 87 →
      2 ^ 63 ≤ GRISU_POWERS_OF_TEN.getD i 0 ∧
      GRISU_POWERS_OF_TEN.getD i 0 < 2 ^ 64 ∧
      qsub (qmul (pow10Q (8 * (i:ℤ) - 348)) (pow2Q (-grisuBinExp (8 * (i:ℤ) - 348))))
          ((GRISU_POWERS_OF_TEN.getD i 0 : ℕ) : ℚ) < mkRat 1 2 ∧
      qsub ((GRISU_POWERS_OF_TEN.getD i 0 : ℕ) : ℚ)
          (qmul (pow10Q (8 * (i:ℤ) - 348)) (pow2Q (-grisuBinExp (8 * (i:ℤ) - 348))))
        < mkRat 1 2 ∧
      grisuBinExpCeil (8 * (i:ℤ) - 348) = grisuBinExp (8 * (i:ℤ) - 348) := by
  exact ⟨rfl, by decide⟩

/-- Witness for C7 at index 0 (decimal exponent `-348`). -/
theorem claim_C7_witness :
    2 ^ 63 ≤ GRISU_POWERS_OF_TEN.getD 0 0 ∧
    GRISU_POWERS_OF_TEN.getD 0 0 < 2 ^ 64 ∧
    qsub (qmul (pow10Q (8 * ((0:ℕ):ℤ) - 348)) (pow2Q (-grisuBinExp (8 * ((0:ℕ):ℤ) - 348))))
        ((GRISU_POWERS_OF_TEN.getD 0 0 : ℕ) : ℚ) < mkRat 1 2 ∧
    qsub ((GRISU_POWERS_OF_TEN.getD 0 0 : ℕ) : ℚ)
        (qmul (pow10Q (8 * ((0:ℕ):ℤ) - 348)) (pow2Q (-grisuBinExp (8 * ((0:ℕ):ℤ) - 348))))
      < mkRat 1 2 ∧
    grisuBinExpCeil (8 * ((0:ℕ):ℤ) - 348) = grisuBinExp (8 * ((0:ℕ):ℤ) - 348) :=
  claim_C7.2 0 (by norm_num)

/-- C8: the exposed sizing constants are 64 bytes for the decimal buffer
and 256 bytes for the radix buffer for both float types, `BUFFER_SIZE`
aliases the f64 size, and the formatted scientific output (sign,
significand digits, point, exponent marker, exponent sign and digits)
always fits in the decimal bound, hence in the radix bound. -/
theorem claim_C8 :
    F32.FORMATTED_SIZE_DECIMAL = 64 ∧ F64.FORMATTED_SIZE_DECIMAL = 64 ∧
    F32.FORMATTED_SIZE true = 256 ∧ F64.FORMATTED_SIZE true = 256 ∧
    F32.FORMATTED_SIZE false = F32.FORMATTED_SIZE_DECIMAL ∧
    (∀ b, BUFFER_SIZE b = F64.FORMATTED_SIZE b) ∧
    (∀ (fmt : FloatFmt), fmt.wf → fmt.sized → ∀ (r : ℕ), 2 ≤ r → r ≤ 36 →
      ∀ (M0 : ℕ) (E0 : ℤ), M0 < 2 ^ fmt.prec → fmt.emin ≤ E0 → E0 ≤ fmt.emax →
        0 < M0 → fmt.canonical M0 E0 →
        sciLength (fmtDigits fmt r M0 E0).1 (fmtDigits fmt r M0 E0).2
            ≤ F64.FORMATTED_SIZE_DECIMAL ∧
        sciLength (fmtDigits fmt r M0 E0).1 (fmtDigits fmt r M0 E0).2
            ≤ F64.FORMATTED_SIZE true) := by
  refine ⟨rfl, rfl, rfl, rfl, rfl, fun b => rfl, ?_⟩
  intro fmt hw hs r hr hr36 M0 E0 hM0 hE0 hE0x hpos hcan
  have h := (fmt_sciLength_le fmt hw hs r hr hr36 M0 E0 hM0 hE0 hE0x hpos hcan).1
  exact ⟨h, le_trans h (by decide)⟩

/-- Witness for C8: the formatted decimal output of binary64 `1.0` fits
both buffer bounds. -/
theorem claim_C8_witness :
    sciLength (fmtDigits fmt64 10 4503599627370496 (-52)).1
        (fmtDigits fmt64 10 4503599627370496 (-52)).2 ≤ F64.FORMATTED_SIZE_DECIMAL ∧
    sciLength (fmtDigits fmt64 10 4503599627370496 (-52)).1
        (fmtDigits fmt64 10 4503599627370496 (-52)).2 ≤ F64.FORMATTED_SIZE true :=
  claim_C8.2.2.2.2.2.2 fmt64 fmt64_wf fmt64_sized 10 (by norm_num) (by norm_num)
    4503599627370496 (-52) (by decide) (by decide) (by decide) (by decide) (Or.inl (by decide))

/-- C9 (corrected): the partial parsing entry point returns the value of
the numeric prefix together with the number of bytes consumed, stopping
at trailing non-numeric bytes (`"1.23/"` yields the float `1.23` and
count 4, the same value as `"1.23"`); however a dangling exponent marker
is reported as an `EmptyExponent` error at its byte offset rather than
backtracking to the valid shorter prefix (`"0e"` errors at offset 2). -/
theorem claim_C9 :
    lexParse fmt32 ['1', '.', '2', '3', '/']
      = .ok (FltR.finite 10317988 (-23), 4) ∧
    lexParse fmt32 ['1', '.', '2', '3']
      = .ok (FltR.finite 10317988 (-23), 4) ∧
    lexParse fmt32 ['0', 'e'] = .error (ErrorCode.emptyExponent, 2) := by
  refine ⟨by decide, by decide, by decide⟩

/-- Counterexample for C9 as stated: `"0"` alone is a valid numeric
prefix of `"0e"`, yet the parser returns an error on `"0e"` instead of
the prefix value — it does not always parse the longest valid numeric
prefix. -/
theorem claim_C9_counterexample :
    lexParse fmt32 ['0'] = .ok (FltR.finite 0 fmt32.emin, 1) ∧
    ∀ v n, lexParse fmt32 ['0', 'e'] ≠ .ok (v, n) := by
  constructor
  · decide
  · intro v n h
    have heq : lexParse fmt32 ['0', 'e'] = .error (ErrorCode.emptyExponent, 2) := by
      decide
    rw [heq] at h
    exact Except.noConfusion h

/-- C10: the unsigned integer writer round-trips through
`from_str_radix` for every value below `2 ^ 128` and radix in `[2, 36]`;
zero is written as the single byte `'0'`, and digits ten and above use
uppercase letters (`37` in base 13 is `"2B"`, `2 ^ 127 - 1` in base 16
is `"7FFF...F"`). -/
theorem claim_C10 :
    (∀ (r : ℕ), 2 ≤ r → r ≤ 36 → ∀ n : ℕ, n < 2 ^ 128 →
      fromStrRadix r (writeMantissa r n) = some n) ∧
    writeMantissa 10 0 = [48] ∧
    writeMantissa 13 37 = [50, 66] ∧
    writeMantissa 16 170141183460469231731687303715884105727 =
      [55, 70, 70, 70, 70, 70, 70, 70, 70, 70, 70, 70, 70, 70, 70, 70,
       70, 70, 70, 70, 70, 70, 70, 70, 70, 70, 70, 70, 70, 70, 70, 70] := by
  refine ⟨?_, by decide, by decide, by decide⟩
  intro r hr hr36 n _hn
  exact writeMantissa_roundtrip r hr hr36 n

/-- Witness for C10 on the corpus value of the base-12 test. -/
theorem claim_C10_witness :
    fromStrRadix 12 (writeMantissa 12 136551478823710021067381144334863695872)
      = some 136551478823710021067381144334863695872 :=
  claim_C10.1 12 (by norm_num) (by norm_num)
    136551478823710021067381144334863695872 (by norm_num)

end LexCore
